import Mathlib

/-!
# Verification of the local-memory stop hook

Shallow embedding of `plugins/local-memory/hooks/local-memory_stop.py`:
the incremental session-completion detector and directory-change aggregator.

Conventions of the embedding:
* Paths are modelled at the character level (the hook runs on a POSIX host,
  `os.sep = '/'`); `normpath` mirrors `posixpath.normpath`, `pparent` mirrors
  `str(pathlib.PurePosixPath(p).parent)` and `pparts` mirrors
  `PurePosixPath(p).parts`.
* Python dicts are modelled as insertion-ordered association lists with
  unique keys (`getA` / `bumpA` / `setA` reproduce lookup, `d[k] += v` on a
  `defaultdict(int)`, and `d[k] = v`).
* A transcript line is modelled by the outcomes of the fixed regex battery on
  its raw text plus the JSON payload the extractor inspects (`TLine`); the
  regex engine and the JSON parser themselves are host-library code, outside
  the embedding.  A run's input is the list of lines actually delivered by the
  file read: an I/O error at open delivers `[]`, an error after `k` lines
  delivers the first `k` lines (the `except` clause in `scan_transcript` only
  logs, and everything after the read loop is unconditional).
* Timestamps are integer seconds.  `is_claude_md_recent` computes
  `age_minutes = (now - gen).total_seconds() / 60` and tests
  `age_minutes < cooldown_minutes`; over exact arithmetic this is equivalent
  to `now - gen < cooldown_minutes * 60`, the form used here.
-/

/-! ## Character-level path operations (POSIX) -/

/-- `"s".split('/')` on character lists: `splitOnChar '/' "a/b" = ["a","b"]`,
`splitOnChar '/' "" = [""]`. -/
def splitOnChar (sep : Char) : List Char → List (List Char)
  | [] => [[]]
  | c :: rest =>
    let r := splitOnChar sep rest
    if c = sep then [] :: r
    else
      match r with
      | [] => [[c]]
      | h :: t => (c :: h) :: t

/-- Boolean list-prefix test (used for `str.startswith`). -/
def leadsWith : List Char → List Char → Bool
  | [], _ => true
  | _ :: _, [] => false
  | p :: ps, c :: cs => p = c && leadsWith ps cs

/-- `str.startswith(pre)`. -/
def pyStartswith (s pre : String) : Bool :=
  leadsWith pre.data s.data

/-- `os.path.isabs` on POSIX: starts with `'/'`. -/
def isAbs (p : String) : Bool :=
  pyStartswith p "/"

/-- The number of initial slashes `posixpath.normpath` preserves:
2 for exactly two leading slashes, otherwise 1 for an absolute path,
0 for a relative one. -/
def initialSlashes (cs : List Char) : Nat :=
  if leadsWith ['/', '/'] cs ∧ ¬ leadsWith ['/', '/', '/'] cs then 2
  else if leadsWith ['/'] cs then 1
  else 0

/-- The component loop of `posixpath.normpath`: drop `''` and `'.'`,
resolve `'..'` against the accumulated components. -/
def normpathComps (slashes : Nat) : List (List Char) → List (List Char) → List (List Char)
  | acc, [] => acc
  | acc, comp :: rest =>
    if comp = [] ∨ comp = ['.'] then normpathComps slashes acc rest
    else if comp ≠ ['.', '.'] ∨ (slashes = 0 ∧ acc = []) ∨ acc.getLast? = some ['.', '.'] then
      normpathComps slashes (acc ++ [comp]) rest
    else if acc ≠ [] then normpathComps slashes acc.dropLast rest
    else normpathComps slashes acc rest

/-- `os.path.normpath` (POSIX).  Faithful port of `posixpath.normpath`. -/
def normpath (p : String) : String :=
  let cs := p.data
  if cs = [] then "."
  else
    let slashes := initialSlashes cs
    let comps := normpathComps slashes [] (splitOnChar '/' cs)
    let joined := List.replicate slashes '/' ++ List.intercalate ['/'] comps
    if joined = [] then "." else ⟨joined⟩

/-- `PurePosixPath(p)`'s non-root components: split on `'/'`, drop empty and
`'.'` components (keeping `'..'`). -/
def rawComps (p : String) : List (List Char) :=
  (splitOnChar '/' p.data).filter (fun c => c ≠ [] ∧ c ≠ ['.'])

/-- `PurePosixPath(p)`'s root: `"//"` for exactly two leading slashes,
`"/"` for one or three-plus, `""` for a relative path. -/
def rootOf (p : String) : List Char :=
  List.replicate (initialSlashes p.data) '/'

/-- `str(PurePosixPath-with-root-and-components)`. -/
def strOfParts (root : List Char) (comps : List (List Char)) : String :=
  if comps = [] then (if root = [] then "." else ⟨root⟩)
  else ⟨root ++ List.intercalate ['/'] comps⟩

/-- `str(PurePosixPath(p).parent)`: drop the last component. -/
def pparent (p : String) : String :=
  strOfParts (rootOf p) (rawComps p).dropLast

/-- `PurePosixPath(p).parts` as a list of strings (the root, when present,
is the first part, as in Python). -/
def pparts (p : String) : List String :=
  (if rootOf p = [] then [] else [⟨rootOf p⟩]) ++ (rawComps p).map (⟨·⟩)

/-- `os.path.join(a, b)` (POSIX, two arguments). -/
def pjoin (a b : String) : String :=
  if isAbs b then b
  else if a = "" ∨ a.data.getLast? = some '/' then ⟨a.data ++ b.data⟩
  else ⟨a.data ++ '/' :: b.data⟩

/-! ## Insertion-ordered association lists (Python dict model) -/

/-- Dict lookup: `m.get(k)`. -/
def getA {α : Type} (m : List (String × α)) (k : String) : Option α :=
  match m with
  | [] => none
  | (k', v) :: rest => if k' = k then some v else getA rest k

/-- `defaultdict(int)` increment: `m[k] += v` (insert at the end on first
occurrence, preserving dict insertion order). -/
def bumpA (m : List (String × Nat)) (k : String) (v : Nat) : List (String × Nat) :=
  match m with
  | [] => [(k, v)]
  | (k', v') :: rest => if k' = k then (k', v' + v) :: rest else (k', v') :: bumpA rest k v

/-- Dict assignment: `m[k] = v`. -/
def setA {α : Type} (m : List (String × α)) (k : String) (v : α) : List (String × α) :=
  match m with
  | [] => [(k, v)]
  | (k', v') :: rest => if k' = k then (k', v) :: rest else (k', v') :: setA rest k v

/-- The keys of an association list. -/
def keysA {α : Type} (m : List (String × α)) : List String :=
  m.map Prod.fst

/-- Sum of the values of a count dict. -/
def sumVals (m : List (String × Nat)) : Nat :=
  (m.map Prod.snd).sum

/-! ## Completion cache and completion judge -/

/-- The persisted `completion_cache` of the session state
(`load_session_state` / `scan_transcript`). -/
structure CompletionCache where
  last_scanned_line : Nat
  has_commit : Bool
  has_test_success : Bool
  has_build_success : Bool
  has_task_complete : Bool
  has_completion_phrase : Bool
  last_edit_index : Int
deriving DecidableEq, Repr

/-- The default completion cache of `load_session_state`. -/
def defaultCompletionCache : CompletionCache :=
  { last_scanned_line := 0
    has_commit := false
    has_test_success := false
    has_build_success := false
    has_task_complete := false
    has_completion_phrase := false
    last_edit_index := -1 }

/-- The completion judge: the `is_complete` / `reason` chain at the end of
`scan_transcript` (lines 408-433 of `local-memory_stop.py`).
`entries_since_last_edit = total_entries - last_edit_index` over Python
integers. -/
def judge_completion (has_commit has_test_success has_build_success
    has_task_complete has_completion_phrase : Bool)
    (last_edit_index : Int) (total_entries : Nat) : Bool × String :=
  let entries_since_last_edit : Int := (total_entries : Int) - last_edit_index
  if has_commit ∧ entries_since_last_edit > 3 then
    (true, "Git commit/push detected with no recent edits")
  else if has_test_success ∧ entries_since_last_edit > 5 then
    (true, "Tests passed (0 failures) with no recent edits")
  else if has_build_success ∧ entries_since_last_edit > 5 then
    (true, "Build succeeded (0 errors) with no recent edits")
  else if has_task_complete ∧ entries_since_last_edit > 5 then
    (true, "Task marked complete with no recent edits")
  else if has_completion_phrase ∧ entries_since_last_edit > 5 then
    (true, "Completion phrase detected with no recent edits")
  else if last_edit_index = -1 then
    (false, "No file modifications in session")
  else if entries_since_last_edit > 15 then
    (true, s!"No edits in last {entries_since_last_edit} transcript entries")
  else
    (false, "No completion signals detected")

/-- Modelled from the spec: the priority table of §4.3 as C1 states it —
six rules in order (`hasCommit`/quiet>3, then the four quiet>5 signals, then
the quiet>15 catch-all), first match wins, otherwise not complete.
The table has no `lastEditIndex = -1` guard; C1 restricts to
`lastEditIndex ≥ 0`. -/
def judgeSpecTable (hasCommit hasTestSuccess hasBuildSuccess
    hasTaskComplete hasCompletionPhrase : Bool)
    (lastEditIndex : Int) (totalLines : Nat) : Bool × String :=
  let quiet : Int := (totalLines : Int) - lastEditIndex
  if hasCommit ∧ quiet > 3 then
    (true, "Git commit/push detected with no recent edits")
  else if hasTestSuccess ∧ quiet > 5 then
    (true, "Tests passed (0 failures) with no recent edits")
  else if hasBuildSuccess ∧ quiet > 5 then
    (true, "Build succeeded (0 errors) with no recent edits")
  else if hasTaskComplete ∧ quiet > 5 then
    (true, "Task marked complete with no recent edits")
  else if hasCompletionPhrase ∧ quiet > 5 then
    (true, "Completion phrase detected with no recent edits")
  else if quiet > 15 then
    (true, s!"No edits in last {quiet} transcript entries")
  else
    (false, "No completion signals detected")

/-! ## Transcript scan (`scan_transcript`)

A transcript line is modelled by the data the scan inspects: the outcome of
each pre-compiled regex category on the raw text, the `'"tool_use"'`
substring check, and the JSON payload (`parsed = none` models a
`json.JSONDecodeError`).  A non-dict content item, and an item whose `type`
is not `'tool_use'`, are both skipped by the source, so both are modelled by
`isToolUse = false`; content that is present but not a (non-empty) list is
modelled by `some []`, observationally equal (both hit the
`not content or not isinstance(content, list)` guard, and both suppress the
structure-2 fallback). -/

/-- One element of a `content` array, restricted to the fields the extractor
reads. `file_path`/`notebook_path` are `""` when absent (mirroring
`tool_input.get('file_path', '')`). -/
structure TItem where
  isToolUse : Bool
  name : String
  inputIsDict : Bool
  file_path : String
  notebook_path : String
deriving DecidableEq, Repr

/-- A parsed transcript entry: the two envelope shapes the source probes.
`dataContent` is `data.message.message.content` (structure 1), `msgContent`
is `message.content` (structure 2); `none` when the chain of dicts is
absent. -/
structure TEntry where
  dataContent : Option (List TItem)
  msgContent : Option (List TItem)
deriving DecidableEq, Repr

/-- One raw transcript line as seen by `scan_transcript`'s loop. -/
structure TLine where
  matchesGit : Bool
  matchesTest : Bool
  matchesBuild : Bool
  matchesTask : Bool
  matchesPhrase : Bool
  matchesEdit : Bool
  hasToolUseMarker : Bool
  parsed : Option TEntry
deriving DecidableEq, Repr

/-- Content resolution: structure 1 (`data.message.message.content`) first,
structure 2 (`message.content`) only when structure 1 yielded nothing. -/

def entryContent (e : TEntry) : Option (List TItem) :=
  match e.dataContent with
  | some c => some c
  | none => e.msgContent

/-- `tool_input.get('file_path', '') or tool_input.get('notebook_path', '')`
(Python `or`: an empty `file_path` falls through to `notebook_path`). -/
def itemTargetPath (it : TItem) : String :=
  if it.file_path ≠ "" then it.file_path else it.notebook_path

/-- Lines 381-388 of `local-memory_stop.py`: normalize the extracted path,
strip the cwd prefix to get a relative path, or skip (`none`) when the path
is absolute and does not start with the normalized cwd. -/
def normalizeExtractedPath (normalized_cwd raw : String) : Option String :=
  let file_path := normpath raw
  if pyStartswith file_path normalized_cwd then
    some ⟨(file_path.data.drop normalized_cwd.data.length).dropWhile (· = '/')⟩
  else if isAbs file_path then none
  else some file_path

/-- Process one content item (lines 362-392): the `seen_paths` set and the
`file_paths` list always hold the same paths, so a single ordered,
duplicate-free list models both. -/
def stepItem (ncwd : String) (fps : List String) (it : TItem) : List String :=
  if ¬ it.isToolUse then fps
  else if ¬ (it.name = "Edit" ∨ it.name = "Write" ∨ it.name = "NotebookEdit") then fps
  else if ¬ it.inputIsDict then fps
  else if itemTargetPath it = "" then fps
  else
    match normalizeExtractedPath ncwd (itemTargetPath it) with
    | none => fps
    | some rel => if rel ∈ fps then fps else fps ++ [rel]

/-- The mutable state of the scan loop over transcript lines. -/
structure LoopSt where
  idx : Nat
  has_commit : Bool
  has_test_success : Bool
  has_build_success : Bool
  has_task_complete : Bool
  has_completion_phrase : Bool
  last_edit_index : Int
  total_entries : Nat
  last_line : Nat
  file_paths : List String
deriving DecidableEq, Repr

/-- Phase 1 of one loop iteration (lines 298-329): completion-signal
detection, active from `completion_start_line`.  Each category's patterns are
tried with `break` on first match, i.e. the flag is OR-ed with the line's
match outcome; `last_edit_index` is set to the current line number when an
active-coding marker matches. -/
def phase1 (completion_start_line : Nat) (st : LoopSt) (l : TLine) : LoopSt :=
  if completion_start_line ≤ st.idx then
    { st with
      has_commit := st.has_commit || l.matchesGit
      has_test_success := st.has_test_success || l.matchesTest
      has_build_success := st.has_build_success || l.matchesBuild
      has_task_complete := st.has_task_complete || l.matchesTask
      has_completion_phrase := st.has_completion_phrase || l.matchesPhrase
      last_edit_index := if l.matchesEdit then (st.idx : Int) else st.last_edit_index }
  else st

/-- Phase 2 of one loop iteration (lines 331-392): file-path extraction,
active from `start_line`; advances `last_line`, and on a `'"tool_use"'` line
parses the JSON and walks the content items. -/
def phase2 (ncwd : String) (start_line : Nat) (st : LoopSt) (l : TLine) : LoopSt :=
  if start_line ≤ st.idx then
    let s := { st with last_line := st.idx + 1 }
    if l.hasToolUseMarker then
      match l.parsed with
      | none => s
      | some e =>
        match entryContent e with
        | some (it :: its) =>
          { s with file_paths := (it :: its).foldl (stepItem ncwd) s.file_paths }
        | _ => s
    else s
  else st

/-- One iteration of the `for line_num, raw_line in enumerate(f)` loop:
update `total_entries`, run both phases, advance the line index. -/
def stepLine (ncwd : String) (completion_start_line start_line : Nat)
    (st : LoopSt) (l : TLine) : LoopSt :=
  let s3 := phase2 ncwd start_line
    (phase1 completion_start_line { st with total_entries := st.idx + 1 } l) l
  { s3 with idx := s3.idx + 1 }

/-- The scan loop over the delivered lines. -/
def scanLoop (ncwd : String) (completion_start_line start_line : Nat) :
    LoopSt → List TLine → LoopSt
  | st, [] => st
  | st, l :: rest =>
    scanLoop ncwd completion_start_line start_line
      (stepLine ncwd completion_start_line start_line st l) rest

/-- The result of `scan_transcript`. -/
structure ScanResult where
  is_complete : Bool
  reason : String
  file_paths : List String
  last_line : Nat
  completion_cache : CompletionCache
deriving Repr

/-- `scan_transcript(transcript_path, cwd, start_line, cached)`.
`delivered` is the list of lines the file read actually yields before
returning or raising (an I/O failure at `open` delivers `[]`); the
`except` clause only logs, and the cache/judgement code after the loop runs
unconditionally. -/
def scan_transcript (delivered : List TLine) (cwd : String) (start_line : Nat)
    (cached : Option CompletionCache) : ScanResult :=
  -- Lines 267-283: load signals from the cache only when it exists and its
  -- last_scanned_line is positive; otherwise all-false, last_edit_index -1,
  -- completion_start_line 0 — exactly `defaultCompletionCache`.
  let c0 : CompletionCache :=
    match cached with
    | some c => if 0 < c.last_scanned_line then c else defaultCompletionCache
    | none => defaultCompletionCache
  let ncwd := normpath cwd
  let init : LoopSt :=
    { idx := 0
      has_commit := c0.has_commit
      has_test_success := c0.has_test_success
      has_build_success := c0.has_build_success
      has_task_complete := c0.has_task_complete
      has_completion_phrase := c0.has_completion_phrase
      last_edit_index := c0.last_edit_index
      total_entries := 0
      last_line := start_line
      file_paths := [] }
  let fin := scanLoop ncwd c0.last_scanned_line start_line init delivered
  let cache' : CompletionCache :=
    { last_scanned_line := fin.total_entries
      has_commit := fin.has_commit
      has_test_success := fin.has_test_success
      has_build_success := fin.has_build_success
      has_task_complete := fin.has_task_complete
      has_completion_phrase := fin.has_completion_phrase
      last_edit_index := fin.last_edit_index }
  let j := judge_completion fin.has_commit fin.has_test_success
    fin.has_build_success fin.has_task_complete fin.has_completion_phrase
    fin.last_edit_index fin.total_entries
  { is_complete := j.1
    reason := j.2
    file_paths := fin.file_paths
    last_line := fin.last_line
    completion_cache := cache' }

/-- A transcript line matching only the git commit/push pattern. -/
def lineCommit : TLine :=
  { matchesGit := true, matchesTest := false, matchesBuild := false
    matchesTask := false, matchesPhrase := false, matchesEdit := false
    hasToolUseMarker := false, parsed := none }

/-- A transcript line matching no pattern at all. -/
def linePlain : TLine :=
  { matchesGit := false, matchesTest := false, matchesBuild := false
    matchesTask := false, matchesPhrase := false, matchesEdit := false
    hasToolUseMarker := false, parsed := none }

/-! ## Directory aggregation (`group_files_by_directory`) -/

/-- The exclusion test of lines 518-523: skip when any excluded token is a
path segment (`excluded in Path(dir_path).parts`). -/
def isExcludedDir (excluded_dirs : List String) (dir_path : String) : Bool :=
  excluded_dirs.any (fun ex => (pparts dir_path).contains ex)

/-- One iteration of the counting loop (lines 513-526). -/
def dirCountStep (excluded_dirs : List String) (dc : List (String × Nat))
    (fp0 : String) : List (String × Nat) :=
  if isExcludedDir excluded_dirs (pparent (normpath fp0)) then dc
  else bumpA dc (pparent (normpath fp0)) 1

/-- Lines 511-526: count files per immediate parent directory, skipping
excluded directories (`dir_counts`). -/
def dir_counts_of (file_paths : List String) (excluded_dirs : List String) :
    List (String × Nat) :=
  file_paths.foldl (dirCountStep excluded_dirs) []

/-- One iteration of the overflow loop (lines 534-538). -/
def overflowStep (threshold : Nat) (acc : List (String × Nat) × List String)
    (e : String × Nat) : List (String × Nat) × List String :=
  if e.2 < threshold then (bumpA acc.1 (pparent e.1) e.2, acc.2 ++ [e.1]) else acc

/-- Lines 531-538: attribute each below-threshold directory's count to its
immediate parent (`parent_overflow`) and record it (`below_threshold_dirs`). -/
def overflowBelow (dc : List (String × Nat)) (threshold : Nat) :
    List (String × Nat) × List String :=
  dc.foldl (overflowStep threshold) ([], [])

/-- The `aggregation_info` record `{direct, from_children, child_count}`. -/
structure AggInfo where
  direct : Nat
  from_children : Nat
  child_count : Nat
deriving DecidableEq, Repr

/-- One iteration of the parent-aggregation loop (lines 546-561). -/
def pass1Step (dc : List (String × Nat)) (below : List String) (threshold : Nat)
    (acc : List (String × Nat) × List (String × AggInfo) × List String)
    (e : String × Nat) :
    List (String × Nat) × List (String × AggInfo) × List String :=
  if threshold ≤ (getA dc e.1).getD 0 + e.2 then
    (setA acc.1 e.1 ((getA dc e.1).getD 0 + e.2),
      setA acc.2.1 e.1
        ⟨(getA dc e.1).getD 0, e.2, (below.filter (fun d => pparent d = e.1)).length⟩,
      acc.2.2 ++ below.filter (fun d => pparent d = e.1))
  else acc

/-- Lines 544-561: for every parent that received overflow, if its direct
count plus the overflow reaches the threshold, report it with the combined
count and aggregation info, and mark its below-threshold children as
absorbed (`aggregated_children`). -/
def pass1 (dc po : List (String × Nat)) (below : List String) (threshold : Nat) :
    List (String × Nat) × List (String × AggInfo) × List String :=
  po.foldl (pass1Step dc below threshold) ([], [], [])

/-- One iteration of the copy-over loop (lines 564-566). -/
def pass2Step (aggCh : List String) (r : List (String × Nat)) (e : String × Nat) :
    List (String × Nat) :=
  if e.1 ∉ aggCh ∧ getA r e.1 = none then setA r e.1 e.2 else r

/-- Lines 563-566: copy over every directory that was neither absorbed into
a parent nor already present in the result. -/
def pass2 (dc result : List (String × Nat)) (aggCh : List String) :
    List (String × Nat) :=
  dc.foldl (pass2Step aggCh) result

/-- `group_files_by_directory(file_paths, cwd, excluded_dirs, threshold)`
(the `cwd` argument is unused by the source function). -/
def group_files_by_directory (file_paths : List String)
    (excluded_dirs : List String) (threshold : Nat) :
    List (String × Nat) × List (String × AggInfo) :=
  let dc := dir_counts_of file_paths excluded_dirs
  let ob := overflowBelow dc threshold
  let p1 := pass1 dc ob.1 ob.2 threshold
  (pass2 dc p1.1 p1.2.2, p1.2.1)

/-- The inner accumulation of `overflowBelow`: bump the parent by the count. -/
def bumpParent (m : List (String × Nat)) (e : String × Nat) : List (String × Nat) :=
  bumpA m (pparent e.1) e.2

/-! ## Session state, cooldown and the candidate filter of `main` -/

/-- The persisted session state (`load_session_state`), restricted to the
fields the candidate filter reads; timestamps are integer seconds. -/
structure SessionState where
  last_processed_line : Nat
  suggested_directories : List String
  generation_times : List (String × Int)
  completion_cache : CompletionCache
deriving Repr

/-- The default session state of `load_session_state`. -/
def emptySessionState : SessionState :=
  { last_processed_line := 0
    suggested_directories := []
    generation_times := []
    completion_cache := defaultCompletionCache }

/-- `is_claude_md_recent(dir_path, cwd, cooldown_minutes, session_state)` at
time `now` (in seconds).  The source reads the recorded generation time from
the session state (looked up under the normalized `dir_path`, falling back
to the absolute `full_dir`) and tests
`(now - gen).total_seconds() / 60 < cooldown_minutes`; over exact arithmetic
this equals `now - gen < cooldown_minutes * 60`, the form used here.
Recorded timestamps are machine-written ISO strings, hence non-empty (the
Python `or` keeps them) and parseable (the parse-failure branch is not
reachable for them). -/
def is_claude_md_recent (dir_path cwd : String) (cooldown_minutes : Int)
    (st : SessionState) (now : Int) : Bool :=
  match (getA st.generation_times (normpath dir_path)).orElse
      (fun _ => getA st.generation_times
        (normpath (if isAbs (normpath dir_path) then normpath dir_path
          else pjoin (normpath cwd) (normpath dir_path)))) with
  | none => false
  | some gen => decide (now - gen < cooldown_minutes * 60)

/-- The four buckets of the candidate loop (lines 659-682). -/
structure CheckBuckets where
  candidate_dirs : List (String × Nat)
  skipped_dirs : List String
  skipped_already_suggested : List String
  below_threshold_dirs : List (String × Nat)
deriving Repr

/-- One iteration of the candidate loop (lines 664-681): below-threshold
first, then the already-suggested filter, then the cooldown filter. -/
def bucketStep (threshold : Nat) (cooldown : Int) (cwd : String) (st : SessionState)
    (now : Int) (b : CheckBuckets) (e : String × Nat) : CheckBuckets :=
  if e.2 < threshold then
    { b with below_threshold_dirs := b.below_threshold_dirs ++ [e] }
  else if e.1 ∈ st.suggested_directories then
    { b with skipped_already_suggested := b.skipped_already_suggested ++ [e.1] }
  else if is_claude_md_recent e.1 cwd cooldown st now then
    { b with skipped_dirs := b.skipped_dirs ++ [e.1] }
  else
    { b with candidate_dirs := b.candidate_dirs ++ [e] }

/-- The candidate loop over `dir_counts.items()`. -/
def classifyDirs (dir_counts : List (String × Nat)) (threshold : Nat)
    (cooldown : Int) (cwd : String) (st : SessionState) (now : Int) : CheckBuckets :=
  dir_counts.foldl (bucketStep threshold cooldown cwd st now) ⟨[], [], [], []⟩

/-- Lines 686-716 of `main`: always advance the processed-line cursor; when
candidates exist, extend `suggested_directories` with them and stamp each
into `generation_times` at "now" before returning them. -/
def runCheck (st : SessionState) (dir_counts : List (String × Nat)) (threshold : Nat)
    (cooldown : Int) (cwd : String) (now : Int) (last_line : Nat) :
    List (String × Nat) × SessionState :=
  if (classifyDirs dir_counts threshold cooldown cwd st now).candidate_dirs = [] then
    ([], { st with last_processed_line := last_line })
  else
    ((classifyDirs dir_counts threshold cooldown cwd st now).candidate_dirs,
      { st with
        last_processed_line := last_line
        suggested_directories := st.suggested_directories ++
          ((classifyDirs dir_counts threshold cooldown cwd st now).candidate_dirs.map
            Prod.fst)
        generation_times :=
          (((classifyDirs dir_counts threshold cooldown cwd st now).candidate_dirs.map
            Prod.fst).foldl (fun g d => setA g d now) st.generation_times) })

/-- Whether `p` is an aggregation parent that reaches the threshold: it
received some overflow `o` and `direct + o ≥ threshold` (the reporting guard
of the parent-aggregation pass). -/
def reportingParentB (dc : List (String × Nat)) (T : Nat) (p : String) : Bool :=
  match getA (overflowBelow dc T).1 p with
  | some o => decide (T ≤ (getA dc p).getD 0 + o)
  | none => false

/-- The per-check inputs of one invocation of the hook (the dir counts come
from the scan+grouping of that invocation; `now` is that run's clock). -/
structure CheckInput where
  dir_counts : List (String × Nat)
  threshold : Nat
  cooldown : Int
  cwd : String
  now : Int
  last_line : Nat
deriving Repr

/-- A sequence of checks against the same persisted session state: each run
loads the state the previous run saved. -/
def runSeq (st : SessionState) : List CheckInput → List (List (String × Nat)) × SessionState
  | [] => ([], st)
  | inp :: rest =>
    (((runCheck st inp.dir_counts inp.threshold inp.cooldown inp.cwd inp.now
        inp.last_line).1 ::
      (runSeq (runCheck st inp.dir_counts inp.threshold inp.cooldown inp.cwd inp.now
        inp.last_line).2 rest).1),
      (runSeq (runCheck st inp.dir_counts inp.threshold inp.cooldown inp.cwd inp.now
        inp.last_line).2 rest).2)

/-! ## Lemmas, sanity checks and claim theorems -/

-- Sanity checks against the Python behaviour.
example : normpath "" = "." := by decide

example : normpath "a/./b/../c" = "a/c" := by decide

example : normpath "//x" = "//x" := by decide

example : normpath "///x" = "/x" := by decide

example : normpath "../x" = "../x" := by decide

example : normpath "/.." = "/" := by decide

example : pparent "a/b" = "a" := by decide

example : pparent "a" = "." := by decide

example : pparent "." = "." := by decide

example : pparent "/a" = "/" := by decide

example : pparent "/" = "/" := by decide

example : pparent ".." = "." := by decide

example : pparent "a/b/" = "a" := by decide

example : pparts "/a/b" = ["/", "a", "b"] := by decide

example : pparts "a/b" = ["a", "b"] := by decide

example : pparts "." = [] := by decide

example : pjoin "/foo" "bar" = "/foo/bar" := by decide

example : pjoin "" "b" = "b" := by decide

example : pjoin "a/" "b" = "a/b" := by decide

theorem getA_setA_self {α : Type} (m : List (String × α)) (k : String) (v : α) :
    getA (setA m k v) k = some v := by
  induction m with
  | nil => simp [getA, setA]
  | cons h rest ih =>
    obtain ⟨k', v'⟩ := h
    by_cases hk : k' = k <;> simp [getA, setA, hk, ih]

theorem getA_setA_ne {α : Type} (m : List (String × α)) (k k' : String) (v : α)
    (h : k ≠ k') : getA (setA m k v) k' = getA m k' := by
  induction m with
  | nil => simp [getA, setA, h]
  | cons hd rest ih =>
    obtain ⟨k'', v''⟩ := hd
    by_cases hk : k'' = k
    · subst hk
      simp [getA, setA, h]
    · simp only [setA, if_neg hk, getA]
      by_cases hk' : k'' = k' <;> simp [hk', ih]

theorem keysA_cons_mem {α : Type} (hd : String × α) (rest : List (String × α)) (k : String) :
    k ∈ keysA (hd :: rest) ↔ k = hd.1 ∨ k ∈ keysA rest := by
  simp only [keysA, List.map_cons, List.mem_cons]

theorem keysA_setA_not_mem {α : Type} (m : List (String × α)) (k : String) (v : α)
    (h : k ∉ keysA m) : setA m k v = m ++ [(k, v)] := by
  induction m with
  | nil => simp [setA]
  | cons hd rest ih =>
    obtain ⟨k', v'⟩ := hd
    have hk : k' ≠ k := fun hc => h ((keysA_cons_mem _ _ _).mpr (Or.inl hc.symm))
    have h' : k ∉ keysA rest := fun hc => h ((keysA_cons_mem _ _ _).mpr (Or.inr hc))
    simp [setA, hk, ih h']

theorem getA_bumpA_self (m : List (String × Nat)) (k : String) (v : Nat) :
    getA (bumpA m k v) k = some ((getA m k).getD 0 + v) := by
  induction m with
  | nil => simp [getA, bumpA]
  | cons hd rest ih =>
    obtain ⟨k', v'⟩ := hd
    by_cases hk : k' = k <;> simp [getA, bumpA, hk, ih]

theorem getA_bumpA_ne (m : List (String × Nat)) (k k' : String) (v : Nat)
    (h : k ≠ k') : getA (bumpA m k v) k' = getA m k' := by
  induction m with
  | nil => simp [getA, bumpA, h]
  | cons hd rest ih =>
    obtain ⟨k'', v''⟩ := hd
    by_cases hk : k'' = k
    · subst hk
      simp [getA, bumpA, h]
    · simp only [bumpA, if_neg hk, getA]
      by_cases hk' : k'' = k' <;> simp [hk', ih]

theorem keysA_bumpA_mem (m : List (String × Nat)) (k : String) (v : Nat)
    (h : k ∈ keysA m) : keysA (bumpA m k v) = keysA m := by
  induction m with
  | nil => simp [keysA] at h
  | cons hd rest ih =>
    obtain ⟨k', v'⟩ := hd
    by_cases hk : k' = k
    · simp [bumpA, hk, keysA]
    · have h' : k ∈ keysA rest := by
        rcases (keysA_cons_mem (k', v') rest k).mp h with h1 | h1
        · exact absurd h1.symm hk
        · exact h1
      have ihh := ih h'
      simp only [bumpA, if_neg hk, keysA, List.map_cons] at ihh ⊢
      rw [ihh]

theorem keysA_bumpA_not_mem (m : List (String × Nat)) (k : String) (v : Nat)
    (h : k ∉ keysA m) : keysA (bumpA m k v) = keysA m ++ [k] := by
  induction m with
  | nil => simp [keysA, bumpA]
  | cons hd rest ih =>
    obtain ⟨k', v'⟩ := hd
    have hk : k' ≠ k := fun hc => h ((keysA_cons_mem _ _ _).mpr (Or.inl hc.symm))
    have h' : k ∉ keysA rest := fun hc => h ((keysA_cons_mem _ _ _).mpr (Or.inr hc))
    have ihh := ih h'
    simp only [bumpA, if_neg hk, keysA, List.map_cons] at ihh ⊢
    rw [ihh, List.cons_append]

theorem keysA_bumpA_nodup (m : List (String × Nat)) (k : String) (v : Nat)
    (h : (keysA m).Nodup) : (keysA (bumpA m k v)).Nodup := by
  by_cases hmem : k ∈ keysA m
  · rw [keysA_bumpA_mem m k v hmem]
    exact h
  · rw [keysA_bumpA_not_mem m k v hmem]
    simp [List.nodup_append, h, hmem]

theorem getA_eq_none_iff {α : Type} (m : List (String × α)) (k : String) :
    getA m k = none ↔ k ∉ keysA m := by
  induction m with
  | nil => simp [getA, keysA]
  | cons hd rest ih =>
    obtain ⟨k', v'⟩ := hd
    rw [keysA_cons_mem]
    by_cases hk : k' = k
    · subst hk
      simp [getA]
    · simp only [getA, if_neg hk, ih]
      constructor
      · intro hn
        intro hc
        rcases hc with h1 | h1
        · exact hk h1.symm
        · exact hn h1
      · intro hn h1
        exact hn (Or.inr h1)

theorem getA_isSome_iff {α : Type} (m : List (String × α)) (k : String) :
    (getA m k).isSome ↔ k ∈ keysA m := by
  rcases h : getA m k with _ | v
  · simpa [h] using (getA_eq_none_iff m k).mp h
  · simp only [Option.isSome_some, true_iff]
    by_contra hc
    rw [← getA_eq_none_iff m k] at hc
    rw [h] at hc
    exact Option.noConfusion hc

/-- **C1.**  For every completion cache with `lastEditIndex ≥ 0` and every
total line count, the completion judge of `scan_transcript` declares the
session complete exactly when the first matching rule of the priority table
fires — `hasCommit ∧ quiet > 3`, else each of the four other signals with
`quiet > 5`, else `quiet > 15`, all strict, `quiet = totalLines −
lastEditIndex` — and otherwise reports not complete; the firing rule
determines the returned reason.  Stated as: the judge coincides with the
spec's priority table whenever `lastEditIndex ≥ 0`. -/
theorem judge_matches_spec_table (hc ht hb hk hp : Bool) (lei : Int)
    (total : Nat) (h : 0 ≤ lei) :
    judge_completion hc ht hb hk hp lei total =
      judgeSpecTable hc ht hb hk hp lei total := by
  have hne : ¬ (lei = -1) := by omega
  simp only [judge_completion, judgeSpecTable, hne, if_false]

/-- Witness for C1 at a concrete input: `lastEditIndex = 2`,
`totalLines = 30`, only `hasTestSuccess` set — rule 2 fires. -/
theorem judge_matches_spec_table_witness :
    (0 : Int) ≤ 2 ∧
      judge_completion false true false false false 2 30 =
        judgeSpecTable false true false false false 2 30 :=
  ⟨by decide, judge_matches_spec_table false true false false false 2 30 (by decide)⟩

/-- Counterexample to C2: a cache with `lastEditIndex = -1` but
`hasCommit = true` and `totalLines = 10` is judged **complete** (the commit
rule fires before the no-modifications guard, `quiet = 10 − (−1) = 11 > 3`),
whereas the claim requires "not complete" for every combination of the five
signal booleans. -/
theorem judge_no_edits_counterexample :
    judge_completion true false false false false (-1) 10 =
      (true, "Git commit/push detected with no recent edits") := by
  decide

/-- **C2 (amended).**  For every completion cache whose `lastEditIndex` is
`-1` and **all five signal booleans false**, the judge reports not complete
for every total line count, with the reason stating there are no
modifications.  (If a signal boolean is true, its rule is checked first and
fires once its quiet threshold is met, since `quiet = totalLines + 1`; the
counterexample above forces restricting the claim to the all-false case.) -/
theorem judge_no_edits_no_signals (total : Nat) :
    judge_completion false false false false false (-1) total =
      (false, "No file modifications in session") := by
  unfold judge_completion
  simp

theorem phase1_idx (c : Nat) (st : LoopSt) (l : TLine) : (phase1 c st l).idx = st.idx := by
  unfold phase1
  split <;> rfl

theorem phase2_idx (n : String) (s : Nat) (st : LoopSt) (l : TLine) :
    (phase2 n s st l).idx = st.idx := by
  unfold phase2
  repeat' split
  all_goals rfl

theorem phase1_total (c : Nat) (st : LoopSt) (l : TLine) :
    (phase1 c st l).total_entries = st.total_entries := by
  unfold phase1
  split <;> rfl

theorem phase2_total (n : String) (s : Nat) (st : LoopSt) (l : TLine) :
    (phase2 n s st l).total_entries = st.total_entries := by
  unfold phase2
  repeat' split
  all_goals rfl

theorem phase1_last_line (c : Nat) (st : LoopSt) (l : TLine) :
    (phase1 c st l).last_line = st.last_line := by
  unfold phase1
  split <;> rfl

theorem phase2_last_line (n : String) (s : Nat) (st : LoopSt) (l : TLine) :
    (phase2 n s st l).last_line = st.last_line ∨
      ((phase2 n s st l).last_line = st.idx + 1 ∧ s ≤ st.idx) := by
  unfold phase2
  split
  · rename_i h
    refine Or.inr ⟨?_, h⟩
    repeat' split
    all_goals rfl
  · exact Or.inl rfl

theorem phase1_file_paths (c : Nat) (st : LoopSt) (l : TLine) :
    (phase1 c st l).file_paths = st.file_paths := by
  unfold phase1
  split <;> rfl

theorem phase1_commit_mono (c : Nat) (st : LoopSt) (l : TLine)
    (h : st.has_commit = true) : (phase1 c st l).has_commit = true := by
  unfold phase1
  split <;> simp [h]

theorem phase2_signals (n : String) (s : Nat) (st : LoopSt) (l : TLine) :
    (phase2 n s st l).has_commit = st.has_commit ∧
      (phase2 n s st l).has_test_success = st.has_test_success ∧
      (phase2 n s st l).has_build_success = st.has_build_success ∧
      (phase2 n s st l).has_task_complete = st.has_task_complete ∧
      (phase2 n s st l).has_completion_phrase = st.has_completion_phrase := by
  unfold phase2
  repeat' split
  all_goals exact ⟨rfl, rfl, rfl, rfl, rfl⟩

theorem stepLine_idx (n : String) (c s : Nat) (st : LoopSt) (l : TLine) :
    (stepLine n c s st l).idx = st.idx + 1 := by
  unfold stepLine
  simp only [phase2_idx, phase1_idx]

theorem stepLine_total (n : String) (c s : Nat) (st : LoopSt) (l : TLine) :
    (stepLine n c s st l).total_entries = st.idx + 1 := by
  unfold stepLine
  show (phase2 _ _ _ _).total_entries = st.idx + 1
  simp only [phase2_total, phase1_total]

theorem stepLine_last_line_lb (n : String) (c s : Nat) (st : LoopSt) (l : TLine)
    (h : s ≤ st.last_line) : s ≤ (stepLine n c s st l).last_line := by
  unfold stepLine
  show s ≤ (phase2 _ _ _ _).last_line
  rcases phase2_last_line n s (phase1 c { st with total_entries := st.idx + 1 } l) l with
    h2 | ⟨h2, h3⟩
  · rw [h2, phase1_last_line]
    exact h
  · rw [h2, phase1_idx]
    rw [phase1_idx] at h3
    exact Nat.le_succ_of_le h3

theorem stepLine_commit_mono (n : String) (c s : Nat) (st : LoopSt) (l : TLine)
    (h : st.has_commit = true) : (stepLine n c s st l).has_commit = true := by
  unfold stepLine
  show (phase2 _ _ _ _).has_commit = true
  rw [(phase2_signals _ _ _ _).1]
  exact phase1_commit_mono _ _ _ h

theorem scanLoop_idx (n : String) (c s : Nat) (st : LoopSt) (ls : List TLine) :
    (scanLoop n c s st ls).idx = st.idx + ls.length := by
  induction ls generalizing st with
  | nil => simp [scanLoop]
  | cons l rest ih =>
    simp only [scanLoop, ih, stepLine_idx, List.length_cons]
    omega

theorem scanLoop_total (n : String) (c s : Nat) (st : LoopSt) (ls : List TLine)
    (h : st.total_entries = st.idx) :
    (scanLoop n c s st ls).total_entries = st.idx + ls.length := by
  induction ls generalizing st with
  | nil => simpa [scanLoop] using h
  | cons l rest ih =>
    simp only [scanLoop, List.length_cons]
    rw [ih _ (by rw [stepLine_total, stepLine_idx]), stepLine_idx]
    omega

theorem scanLoop_last_line_lb (n : String) (c s : Nat) (st : LoopSt)
    (ls : List TLine) (h : s ≤ st.last_line) :
    s ≤ (scanLoop n c s st ls).last_line := by
  induction ls generalizing st with
  | nil => simpa [scanLoop] using h
  | cons l rest ih => exact ih _ (stepLine_last_line_lb n c s st l h)

theorem scanLoop_commit_mono (n : String) (c s : Nat) (st : LoopSt)
    (ls : List TLine) (h : st.has_commit = true) :
    (scanLoop n c s st ls).has_commit = true := by
  induction ls generalizing st with
  | nil => simpa [scanLoop] using h
  | cons l rest ih => exact ih _ (stepLine_commit_mono n c s st l h)

theorem phase1_signals_mono (c : Nat) (st : LoopSt) (l : TLine) :
    (st.has_commit = true → (phase1 c st l).has_commit = true) ∧
      (st.has_test_success = true → (phase1 c st l).has_test_success = true) ∧
      (st.has_build_success = true → (phase1 c st l).has_build_success = true) ∧
      (st.has_task_complete = true → (phase1 c st l).has_task_complete = true) ∧
      (st.has_completion_phrase = true → (phase1 c st l).has_completion_phrase = true) := by
  unfold phase1
  split <;> refine ⟨?_, ?_, ?_, ?_, ?_⟩ <;> intro h <;> simp [h]

theorem stepLine_signals_mono (n : String) (c s : Nat) (st : LoopSt) (l : TLine) :
    (st.has_commit = true → (stepLine n c s st l).has_commit = true) ∧
      (st.has_test_success = true → (stepLine n c s st l).has_test_success = true) ∧
      (st.has_build_success = true → (stepLine n c s st l).has_build_success = true) ∧
      (st.has_task_complete = true → (stepLine n c s st l).has_task_complete = true) ∧
      (st.has_completion_phrase = true → (stepLine n c s st l).has_completion_phrase = true) := by
  unfold stepLine
  have h2 := phase2_signals n s (phase1 c { st with total_entries := st.idx + 1 } l) l
  have h1 := phase1_signals_mono c { st with total_entries := st.idx + 1 } l
  refine ⟨?_, ?_, ?_, ?_, ?_⟩ <;> intro h
  · show (phase2 _ _ _ _).has_commit = true
    rw [h2.1]
    exact h1.1 h
  · show (phase2 _ _ _ _).has_test_success = true
    rw [h2.2.1]
    exact h1.2.1 h
  · show (phase2 _ _ _ _).has_build_success = true
    rw [h2.2.2.1]
    exact h1.2.2.1 h
  · show (phase2 _ _ _ _).has_task_complete = true
    rw [h2.2.2.2.1]
    exact h1.2.2.2.1 h
  · show (phase2 _ _ _ _).has_completion_phrase = true
    rw [h2.2.2.2.2]
    exact h1.2.2.2.2 h

theorem scanLoop_signals_mono (n : String) (c s : Nat) (st : LoopSt) (ls : List TLine) :
    (st.has_commit = true → (scanLoop n c s st ls).has_commit = true) ∧
      (st.has_test_success = true → (scanLoop n c s st ls).has_test_success = true) ∧
      (st.has_build_success = true → (scanLoop n c s st ls).has_build_success = true) ∧
      (st.has_task_complete = true → (scanLoop n c s st ls).has_task_complete = true) ∧
      (st.has_completion_phrase = true → (scanLoop n c s st ls).has_completion_phrase = true) := by
  induction ls generalizing st with
  | nil => exact ⟨id, id, id, id, id⟩
  | cons l rest ih =>
    have hs := stepLine_signals_mono n c s st l
    have hr := ih (stepLine n c s st l)
    exact ⟨fun h => hr.1 (hs.1 h), fun h => hr.2.1 (hs.2.1 h),
      fun h => hr.2.2.1 (hs.2.2.1 h), fun h => hr.2.2.2.1 (hs.2.2.2.1 h),
      fun h => hr.2.2.2.2 (hs.2.2.2.2 h)⟩

/-- **C8 (code bug).**  Lines 381-388 strip the cwd prefix with a raw string
`startswith` check: an absolute path like `/foobar/x.py` outside the project
root `/foo` is *not* dropped but mangled into the relative path `bar/x.py`
and fed to the aggregator, contradicting the source's own comment on the
sibling branch ("File is outside project root — skip it") and the spec's
Path Normalizer contract.  Paths under the root and relative paths behave as
claimed; a genuinely non-matching absolute path is dropped. -/
theorem normalizeExtractedPath_prefix_bug :
    normalizeExtractedPath "/foo" "/foobar/x.py" = some "bar/x.py" ∧
      normalizeExtractedPath "/foo" "/foo/y.py" = some "y.py" ∧
      normalizeExtractedPath "/foo" "/elsewhere/z.py" = none ∧
      normalizeExtractedPath "/foo" "rel/w.py" = some "rel/w.py" := by
  decide

/-- **C9.**  Failure degradation of `scan_transcript`: (a) a read that
delivers no lines (I/O failure at or right after `open`) yields no new file
paths and a `last_line` cursor equal to `start_line`, for every cwd,
start line and cached state; (b) a line whose JSON does not parse
(`json.JSONDecodeError`, modelled by `parsed = none`) contributes no file
paths yet scanning continues: the line index still advances.  Together with
the totality of `scan_transcript` over every delivered prefix, every failure
mode degrades to the "detected nothing new" outcome instead of raising. -/
theorem scan_degrades_gracefully :
    (∀ (cwd : String) (start : Nat) (cached : Option CompletionCache),
        (scan_transcript [] cwd start cached).file_paths = [] ∧
          (scan_transcript [] cwd start cached).last_line = start) ∧
      (∀ (ncwd : String) (csl sl : Nat) (st : LoopSt) (l : TLine),
          l.parsed = none →
            (stepLine ncwd csl sl st l).file_paths = st.file_paths ∧
              (stepLine ncwd csl sl st l).idx = st.idx + 1) := by
  constructor
  · intro cwd start cached
    exact ⟨rfl, rfl⟩
  · intro ncwd csl sl st l h
    refine ⟨?_, stepLine_idx ncwd csl sl st l⟩
    show (phase2 _ _ _ _).file_paths = st.file_paths
    unfold phase2
    rw [phase1_file_paths]
    repeat' split
    all_goals simp_all [phase1_file_paths]

/-- Witness for C9 at concrete inputs: an empty delivery with a nonempty
cache, and a malformed-JSON line carrying the tool-use marker. -/
theorem scan_degrades_gracefully_witness :
    ((scan_transcript [] "/repo" 7 (some defaultCompletionCache)).file_paths = [] ∧
        (scan_transcript [] "/repo" 7 (some defaultCompletionCache)).last_line = 7) ∧
      (({ matchesGit := false, matchesTest := false, matchesBuild := false
          matchesTask := false, matchesPhrase := false, matchesEdit := false
          hasToolUseMarker := true, parsed := none } : TLine).parsed = none ∧
        (stepLine "/repo" 0 0
            { idx := 0, has_commit := false, has_test_success := false
              has_build_success := false, has_task_complete := false
              has_completion_phrase := false, last_edit_index := -1
              total_entries := 0, last_line := 0, file_paths := [] }
            { matchesGit := false, matchesTest := false, matchesBuild := false
              matchesTask := false, matchesPhrase := false, matchesEdit := false
              hasToolUseMarker := true, parsed := none }).file_paths = []) :=
  ⟨scan_degrades_gracefully.1 "/repo" 7 (some defaultCompletionCache),
    rfl,
    (scan_degrades_gracefully.2 "/repo" 0 0
      { idx := 0, has_commit := false, has_test_success := false
        has_build_success := false, has_task_complete := false
        has_completion_phrase := false, last_edit_index := -1
        total_entries := 0, last_line := 0, file_paths := [] }
      { matchesGit := false, matchesTest := false, matchesBuild := false
        matchesTask := false, matchesPhrase := false, matchesEdit := false
        hasToolUseMarker := true, parsed := none } rfl).1⟩

/-- Counterexample to C6: after a run that sees a commit line (cache
`last_scanned_line = 1`, `has_commit = true`), a run whose transcript read
fails before any line writes back `last_scanned_line = 0` — the cursor
*decreases* — and because the next run only loads the cached booleans when
`last_scanned_line > 0`, a third (successful) run loses `has_commit`:
the sticky-signal and monotone-cursor invariants both fail across runs with
a failing read. -/
theorem scan_cache_monotone_counterexample :
    (scan_transcript [lineCommit] "/r" 0 none).completion_cache.last_scanned_line = 1 ∧
      (scan_transcript [lineCommit] "/r" 0 none).completion_cache.has_commit = true ∧
      (scan_transcript [] "/r" 0
          (some (scan_transcript [lineCommit] "/r" 0 none).completion_cache)
        ).completion_cache.last_scanned_line = 0 ∧
      (scan_transcript [] "/r" 0
          (some (scan_transcript [lineCommit] "/r" 0 none).completion_cache)
        ).completion_cache.has_commit = true ∧
      (scan_transcript [linePlain] "/r" 0
          (some (scan_transcript [] "/r" 0
            (some (scan_transcript [lineCommit] "/r" 0 none).completion_cache)
          ).completion_cache)).completion_cache.has_commit = false := by
  decide

/-- **C6 (amended).**  Across runs of the same session in which the
transcript read completes — the delivered line count is at least the cached
`last_scanned_line`, as for an append-only log read to the end — and the
cached `last_scanned_line` is positive, the persisted cache is monotone:
`last_scanned_line` never decreases and each of the five signal booleans,
once true, stays true; moreover in *every* run (even a failing one) the
scan's `last_line` — the value stored into `last_processed_line` — is at
least the starting cursor.  (A run whose read fails resets
`last_scanned_line` to the number of lines actually delivered, possibly 0,
after which a later run re-derives the booleans from scratch; the
counterexample forces excluding such runs.) -/
theorem scan_cache_monotone_amended (delivered : List TLine) (cwd : String)
    (start : Nat) (c : CompletionCache)
    (hpos : 0 < c.last_scanned_line)
    (hgrow : c.last_scanned_line ≤ delivered.length) :
    c.last_scanned_line ≤
        (scan_transcript delivered cwd start (some c)).completion_cache.last_scanned_line ∧
      (c.has_commit = true →
        (scan_transcript delivered cwd start (some c)).completion_cache.has_commit = true) ∧
      (c.has_test_success = true →
        (scan_transcript delivered cwd start (some c)).completion_cache.has_test_success = true) ∧
      (c.has_build_success = true →
        (scan_transcript delivered cwd start (some c)).completion_cache.has_build_success = true) ∧
      (c.has_task_complete = true →
        (scan_transcript delivered cwd start (some c)).completion_cache.has_task_complete = true) ∧
      (c.has_completion_phrase = true →
        (scan_transcript delivered cwd start (some c)).completion_cache.has_completion_phrase = true) ∧
      start ≤ (scan_transcript delivered cwd start (some c)).last_line := by
  have hc0 : (if 0 < c.last_scanned_line then c else defaultCompletionCache) = c :=
    if_pos hpos
  simp only [scan_transcript, hc0]
  refine ⟨?_, ?_, ?_, ?_, ?_, ?_, ?_⟩
  · show c.last_scanned_line ≤ (scanLoop _ _ _ _ _).total_entries
    rw [scanLoop_total _ _ _ _ _ rfl]
    simpa using hgrow
  · exact fun h => (scanLoop_signals_mono _ _ _ _ _).1 h
  · exact fun h => (scanLoop_signals_mono _ _ _ _ _).2.1 h
  · exact fun h => (scanLoop_signals_mono _ _ _ _ _).2.2.1 h
  · exact fun h => (scanLoop_signals_mono _ _ _ _ _).2.2.2.1 h
  · exact fun h => (scanLoop_signals_mono _ _ _ _ _).2.2.2.2 h
  · exact scanLoop_last_line_lb _ _ _ _ _ (Nat.le_refl start)

/-- Witness for the amended C6 at a concrete input: a one-line cache with
`has_commit = true` and a one-line delivery. -/
theorem scan_cache_monotone_amended_witness :
    (0 < 1 ∧ 1 ≤ [linePlain].length) ∧
      1 ≤ (scan_transcript [linePlain] "/r" 3
            (some { last_scanned_line := 1, has_commit := true
                    has_test_success := false, has_build_success := false
                    has_task_complete := false, has_completion_phrase := false
                    last_edit_index := 0 })).completion_cache.last_scanned_line ∧
      (scan_transcript [linePlain] "/r" 3
          (some { last_scanned_line := 1, has_commit := true
                  has_test_success := false, has_build_success := false
                  has_task_complete := false, has_completion_phrase := false
                  last_edit_index := 0 })).completion_cache.has_commit = true :=
  have h := scan_cache_monotone_amended [linePlain] "/r" 3
    { last_scanned_line := 1, has_commit := true
      has_test_success := false, has_build_success := false
      has_task_complete := false, has_completion_phrase := false
      last_edit_index := 0 } (by decide) (by decide)
  ⟨⟨by decide, by decide⟩, h.1, h.2.1 rfl⟩

-- Sanity: spec example scenario 1 and 2, and the exclusion filter.
example :
    (group_files_by_directory ["src/api/a.ts", "src/api/b.ts"] [] 2).1 =
      [("src/api", 2)] := by decide

example :
    (group_files_by_directory ["src/x/a.py", "src/y/b.py", "src/z/c.py"] [] 2).1 =
      [("src", 3)] := by decide

example :
    (group_files_by_directory ["src/x/a.py", "src/y/b.py", "src/z/c.py"] [] 2).2 =
      [("src", ⟨0, 3, 3⟩)] := by decide

example :
    (group_files_by_directory ["node_modules/x/a.js", "src/a.ts", "src/b.ts"]
      ["node_modules"] 2).1 = [("src", 2)] := by decide

/-! ## Path-layer lemmas: `pparts` of a parent is contained in `pparts` -/

theorem splitOnChar_ne_nil (sep : Char) (cs : List Char) : splitOnChar sep cs ≠ [] := by
  cases cs with
  | nil => simp [splitOnChar]
  | cons c rest =>
    simp only [splitOnChar]
    split
    · simp
    · split <;> simp

theorem splitOnChar_sep_not_mem (sep : Char) (cs : List Char) :
    ∀ part ∈ splitOnChar sep cs, sep ∉ part := by
  induction cs with
  | nil =>
    intro part h
    simp [splitOnChar] at h
    simp [h]
  | cons c rest ih =>
    intro part h
    simp only [splitOnChar] at h
    by_cases hc : c = sep
    · rw [if_pos hc] at h
      rcases List.mem_cons.mp h with h1 | h1
      · simp [h1]
      · exact ih part h1
    · rw [if_neg hc] at h
      rcases hr : splitOnChar sep rest with _ | ⟨hh, tt⟩
      · exact absurd hr (splitOnChar_ne_nil sep rest)
      · rw [hr] at h
        rcases List.mem_cons.mp h with h1 | h1
        · subst h1
          intro hmem
          rcases List.mem_cons.mp hmem with h2 | h2
          · exact hc h2.symm
          · exact ih hh (hr ▸ List.mem_cons_self hh tt) h2
        · exact ih part (hr ▸ List.mem_cons_of_mem hh h1)

theorem splitOnChar_no_sep (sep : Char) (cs : List Char) (h : sep ∉ cs) :
    splitOnChar sep cs = [cs] := by
  induction cs with
  | nil => simp [splitOnChar]
  | cons c rest ih =>
    have hc : c ≠ sep := fun hc => h (hc ▸ List.mem_cons_self c rest)
    have hr : sep ∉ rest := fun hm => h (List.mem_cons_of_mem c hm)
    simp only [splitOnChar, if_neg fun hcc => hc hcc, ih hr]

theorem splitOnChar_append_sep (sep : Char) (xs ys : List Char) (h : sep ∉ xs) :
    splitOnChar sep (xs ++ sep :: ys) = xs :: splitOnChar sep ys := by
  induction xs with
  | nil => simp [splitOnChar]
  | cons x xs' ih =>
    have hx : x ≠ sep := fun hc => h (hc ▸ List.mem_cons_self x xs')
    have hr : sep ∉ xs' := fun hm => h (List.mem_cons_of_mem x hm)
    have ihh := ih hr
    simp only [List.cons_append, splitOnChar, if_neg fun hcc => hx hcc]
    rw [show xs'.append (sep :: ys) = xs' ++ sep :: ys from rfl, ihh]

theorem splitOnChar_intercalate (comps : List (List Char))
    (hne : comps ≠ []) (h : ∀ c ∈ comps, '/' ∉ c) :
    splitOnChar '/' (List.intercalate ['/'] comps) = comps := by
  induction comps with
  | nil => exact absurd rfl hne
  | cons x rest ih =>
    cases rest with
    | nil =>
      rw [show List.intercalate ['/'] [x] = x by simp [List.intercalate]]
      exact splitOnChar_no_sep '/' x (h x (List.mem_cons_self x []))
    | cons y rest' =>
      have hxt : List.intercalate ['/'] (x :: y :: rest') =
          x ++ '/' :: List.intercalate ['/'] (y :: rest') := by
        simp [List.intercalate, List.intersperse]
      rw [hxt, splitOnChar_append_sep '/' x _ (h x (List.mem_cons_self x _))]
      rw [ih (by simp) (fun c hc => h c (List.mem_cons_of_mem x hc))]

theorem splitOnChar_replicate_sep (sep : Char) (k : Nat) (cs : List Char) :
    splitOnChar sep (List.replicate k sep ++ cs) =
      List.replicate k [] ++ splitOnChar sep cs := by
  induction k with
  | zero => simp
  | succ n ih =>
    simp only [List.replicate_succ, List.cons_append, splitOnChar, if_pos rfl]
    rw [show (List.replicate n sep).append cs = List.replicate n sep ++ cs from rfl, ih]
    rfl

theorem initialSlashes_le_two (cs : List Char) : initialSlashes cs ≤ 2 := by
  unfold initialSlashes
  split
  · exact Nat.le_refl 2
  · split
    · exact Nat.le_succ 1
    · exact Nat.zero_le 2

/-- A component of `rawComps` is nonempty, not `"."`, and slash-free. -/
theorem rawComps_good (p : String) :
    ∀ c ∈ rawComps p, c ≠ [] ∧ c ≠ ['.'] ∧ '/' ∉ c := by
  intro c hc
  have h1 := List.of_mem_filter hc
  have h2 := List.mem_of_mem_filter hc
  simp only [decide_eq_true_eq] at h1
  exact ⟨h1.1, h1.2, splitOnChar_sep_not_mem '/' p.data c h2⟩

theorem rawComps_strOfParts (k : Nat) (comps : List (List Char)) (hk : k ≤ 2)
    (h : ∀ c ∈ comps, c ≠ [] ∧ c ≠ ['.'] ∧ '/' ∉ c) :
    rawComps (strOfParts (List.replicate k '/') comps) = comps := by
  cases comps with
  | nil =>
    have hk3 : k = 0 ∨ k = 1 ∨ k = 2 := by omega
    rcases hk3 with h0 | h1 | h2
    · subst h0
      decide
    · subst h1
      decide
    · subst h2
      decide
  | cons x rest =>
    have hne : (x :: rest : List (List Char)) ≠ [] := by simp
    unfold strOfParts
    rw [if_neg (by simp)]
    by_cases hkz : k = 0
    · subst hkz
      unfold rawComps
      simp only [List.replicate_zero, List.nil_append]
      rw [splitOnChar_intercalate _ hne (fun c hc => (h c hc).2.2)]
      rw [List.filter_eq_self.mpr]
      intro c hc
      simp only [decide_eq_true_eq]
      exact ⟨(h c hc).1, (h c hc).2.1⟩
    · unfold rawComps
      rw [show (String.mk (List.replicate k '/' ++ List.intercalate ['/'] (x :: rest))).data =
        List.replicate k '/' ++ List.intercalate ['/'] (x :: rest) from rfl]
      rw [splitOnChar_replicate_sep '/' k _,
        splitOnChar_intercalate _ hne (fun c hc => (h c hc).2.2)]
      rw [List.filter_append]
      rw [show List.filter (fun c => decide (c ≠ [] ∧ c ≠ ['.'])) (List.replicate k ([] : List Char)) = [] by
        simp [List.filter_eq_nil_iff]]
      rw [List.nil_append, List.filter_eq_self.mpr]
      intro c hc
      simp only [decide_eq_true_eq]
      exact ⟨(h c hc).1, (h c hc).2.1⟩

theorem rootOf_strOfParts (k : Nat) (comps : List (List Char)) (hk : k ≤ 2)
    (h : ∀ c ∈ comps, c ≠ [] ∧ c ≠ ['.'] ∧ '/' ∉ c) :
    rootOf (strOfParts (List.replicate k '/') comps) = List.replicate k '/' := by
  have hk3 : k = 0 ∨ k = 1 ∨ k = 2 := by omega
  cases comps with
  | nil =>
    rcases hk3 with h0 | h1 | h2 <;> subst_vars <;> decide
  | cons x rest =>
    obtain ⟨hx1, _, hx3⟩ := h x (List.mem_cons_self x rest)
    obtain ⟨xc, xrest, hx⟩ : ∃ xc xrest, x = xc :: xrest := by
      cases x with
      | nil => exact absurd rfl hx1
      | cons a b => exact ⟨a, b, rfl⟩
    have hxc : xc ≠ '/' := by
      intro hc
      exact hx3 (by rw [hx, hc]; exact List.mem_cons_self '/' xrest)
    have htail : ∃ tail, (strOfParts (List.replicate k '/') (x :: rest)).data =
        List.replicate k '/' ++ xc :: tail := by
      unfold strOfParts
      rw [if_neg (by simp)]
      have hsplit : List.intercalate ['/'] (x :: rest) =
          x ++ (List.intercalate ['/'] (x :: rest)).drop x.length := by
        cases rest with
        | nil =>
          rw [show List.intercalate ['/'] [x] = x by simp [List.intercalate]]
          simp
        | cons y rest' =>
          rw [show List.intercalate ['/'] (x :: y :: rest') =
            x ++ '/' :: List.intercalate ['/'] (y :: rest') by
              simp [List.intercalate, List.intersperse]]
          simp
      refine ⟨xrest ++ (List.intercalate ['/'] (x :: rest)).drop x.length, ?_⟩
      rw [show (String.mk (List.replicate k '/' ++ ['/'].intercalate (x :: rest))).data =
        List.replicate k '/' ++ List.intercalate ['/'] (x :: rest) from rfl]
      rw [hsplit, hx]
      simp
    obtain ⟨tail, htail⟩ := htail
    unfold rootOf initialSlashes
    rw [htail]
    rcases hk3 with h0 | h1 | h2
    · subst h0
      simp only [List.replicate_zero, List.nil_append]
      rw [if_neg, if_neg]
      all_goals simp [leadsWith, Ne.symm hxc]
    · subst h1
      simp only [List.replicate_succ, List.replicate_zero, List.nil_append, List.cons_append]
      rw [if_neg, if_pos]
      all_goals simp [leadsWith, Ne.symm hxc]
    · subst h2
      simp only [List.replicate_succ, List.replicate_zero, List.nil_append, List.cons_append]
      rw [if_pos]
      all_goals simp [leadsWith, Ne.symm hxc]

theorem rootOf_shape (p : String) : rootOf p = List.replicate (initialSlashes p.data) '/' :=
  rfl

theorem pparts_pparent_subset (d : String) :
    ∀ tok ∈ pparts (pparent d), tok ∈ pparts d := by
  intro tok htok
  have hgood : ∀ c ∈ (rawComps d).dropLast, c ≠ [] ∧ c ≠ ['.'] ∧ '/' ∉ c :=
    fun c hc => rawComps_good d c (List.Sublist.mem hc (List.dropLast_sublist _))
  have hk : initialSlashes d.data ≤ 2 := initialSlashes_le_two d.data
  have hpp : pparent d =
      strOfParts (List.replicate (initialSlashes d.data) '/') (rawComps d).dropLast := rfl
  have h1 : rawComps (pparent d) = (rawComps d).dropLast := by
    rw [hpp]
    exact rawComps_strOfParts _ _ hk hgood
  have h2 : rootOf (pparent d) = rootOf d := by
    rw [hpp, rootOf_shape d]
    exact rootOf_strOfParts _ _ hk hgood
  unfold pparts at htok ⊢
  rw [h1, h2] at htok
  rcases List.mem_append.mp htok with hr | hm
  · exact List.mem_append_left _ hr
  · rcases List.mem_map.mp hm with ⟨c, hc, hceq⟩
    exact List.mem_append_right _
      (List.mem_map.mpr ⟨c, List.Sublist.mem hc (List.dropLast_sublist _), hceq⟩)

/-- Exclusion-freedom is preserved by taking the parent directory: every
path segment of `pparent d` is a path segment of `d`. -/
theorem isExcludedDir_pparent (ex : List String) (d : String)
    (h : isExcludedDir ex d = false) : isExcludedDir ex (pparent d) = false := by
  unfold isExcludedDir at h ⊢
  rw [List.any_eq_false] at h ⊢
  intro x hx
  have hd := h x hx
  intro hc
  apply hd
  have hmem : x ∈ pparts (pparent d) := by simpa using hc
  simpa using pparts_pparent_subset d x hmem

/-! ## Association-list and aggregation characterization lemmas -/

theorem getA_mem {α : Type} (m : List (String × α)) (k : String) (v : α)
    (h : getA m k = some v) : (k, v) ∈ m := by
  induction m with
  | nil => simp [getA] at h
  | cons hd rest ih =>
    obtain ⟨k', v'⟩ := hd
    unfold getA at h
    split at h
    · rename_i heq
      subst heq
      rw [Option.some_inj] at h
      subst h
      exact List.mem_cons_self _ _
    · exact List.mem_cons_of_mem _ (ih h)

theorem getA_of_mem_nodup {α : Type} (m : List (String × α)) (k : String) (v : α)
    (hnd : (keysA m).Nodup) (h : (k, v) ∈ m) : getA m k = some v := by
  induction m with
  | nil => simp at h
  | cons hd rest ih =>
    obtain ⟨k', v'⟩ := hd
    have hnd' : (keysA rest).Nodup := (List.nodup_cons.mp hnd).2
    rcases List.mem_cons.mp h with h1 | h1
    · have hk : k = k' := congrArg Prod.fst h1
      have hv : v = v' := congrArg Prod.snd h1
      subst hk
      subst hv
      simp [getA]
    · have hk : k' ≠ k := by
        intro hc
        subst hc
        exact (List.nodup_cons.mp hnd).1
          (by simpa [keysA] using List.mem_map_of_mem Prod.fst h1)
      simp only [getA, if_neg hk]
      exact ih hnd' h1

theorem mem_entry_unique (m : List (String × Nat)) (k : String) (v v' : Nat)
    (hnd : (keysA m).Nodup) (h : (k, v) ∈ m) (h' : (k, v') ∈ m) : v = v' := by
  have e1 := getA_of_mem_nodup m k v hnd h
  have e2 := getA_of_mem_nodup m k v' hnd h'
  rw [e1] at e2
  exact Option.some_inj.mp e2

theorem sumVals_bumpA (m : List (String × Nat)) (k : String) (v : Nat) :
    sumVals (bumpA m k v) = sumVals m + v := by
  induction m with
  | nil => simp [sumVals, bumpA]
  | cons hd rest ih =>
    obtain ⟨k', v'⟩ := hd
    by_cases hk : k' = k
    · simp [bumpA, hk, sumVals]
      omega
    · simp [bumpA, hk, sumVals] at ih ⊢
      omega

theorem sumVals_setA_fresh (m : List (String × Nat)) (k : String) (v : Nat)
    (h : getA m k = none) : sumVals (setA m k v) = sumVals m + v := by
  rw [keysA_setA_not_mem m k v ((getA_eq_none_iff m k).mp h)]
  simp [sumVals]

theorem keysA_bumpA_mem_iff (m : List (String × Nat)) (k q : String) (v : Nat) :
    q ∈ keysA (bumpA m k v) ↔ q ∈ keysA m ∨ q = k := by
  by_cases hmem : k ∈ keysA m
  · rw [keysA_bumpA_mem m k v hmem]
    constructor
    · exact Or.inl
    · intro h
      rcases h with h | h
      · exact h
      · exact h ▸ hmem
  · rw [keysA_bumpA_not_mem m k v hmem]
    simp

theorem dirCountStep_keys_nodup (ex : List String) (dc : List (String × Nat))
    (f : String) (h : (keysA dc).Nodup) : (keysA (dirCountStep ex dc f)).Nodup := by
  unfold dirCountStep
  split
  · exact h
  · exact keysA_bumpA_nodup _ _ _ h

theorem dirCountStep_excl (ex : List String) (dc : List (String × Nat)) (f : String)
    (hex : isExcludedDir ex (pparent (normpath f)) = true) :
    dirCountStep ex dc f = dc := by
  unfold dirCountStep
  rw [if_pos hex]

theorem dirCountStep_keep (ex : List String) (dc : List (String × Nat)) (f : String)
    (hex : ¬ isExcludedDir ex (pparent (normpath f)) = true) :
    dirCountStep ex dc f = bumpA dc (pparent (normpath f)) 1 := by
  unfold dirCountStep
  rw [if_neg hex]

theorem dir_counts_loop_nodup (ex : List String) (files : List String)
    (acc : List (String × Nat)) (h : (keysA acc).Nodup) :
    (keysA (files.foldl (dirCountStep ex) acc)).Nodup := by
  induction files generalizing acc with
  | nil => exact h
  | cons f rest ih => exact ih _ (dirCountStep_keys_nodup ex acc f h)

theorem dir_counts_nodup (files ex : List String) :
    (keysA (dir_counts_of files ex)).Nodup :=
  dir_counts_loop_nodup ex files [] (by simp [keysA])

theorem dir_counts_loop_sum (ex : List String) (files : List String)
    (acc : List (String × Nat)) :
    sumVals (files.foldl (dirCountStep ex) acc) =
      sumVals acc +
        (files.filter (fun f => !(isExcludedDir ex (pparent (normpath f))))).length := by
  induction files generalizing acc with
  | nil => simp
  | cons f rest ih =>
    simp only [List.foldl_cons]
    by_cases hex : isExcludedDir ex (pparent (normpath f)) = true
    · rw [dirCountStep_excl ex acc f hex, ih]
      simp [hex]
    · rw [dirCountStep_keep ex acc f hex, ih, sumVals_bumpA]
      have hex' : isExcludedDir ex (pparent (normpath f)) = false :=
        Bool.eq_false_iff.mpr hex
      simp [hex']
      omega

theorem dir_counts_sum (files ex : List String) :
    sumVals (dir_counts_of files ex) =
      (files.filter (fun f => !(isExcludedDir ex (pparent (normpath f))))).length := by
  have := dir_counts_loop_sum ex files []
  simpa [sumVals] using this

theorem dir_counts_loop_keys_excl (ex : List String) (files : List String)
    (acc : List (String × Nat))
    (hacc : ∀ p ∈ keysA acc, isExcludedDir ex p = false) :
    ∀ p ∈ keysA (files.foldl (dirCountStep ex) acc), isExcludedDir ex p = false := by
  induction files generalizing acc with
  | nil => exact hacc
  | cons f rest ih =>
    refine ih _ ?_
    intro p hp
    by_cases hex : isExcludedDir ex (pparent (normpath f)) = true
    · rw [dirCountStep_excl ex acc f hex] at hp
      exact hacc p hp
    · rw [dirCountStep_keep ex acc f hex] at hp
      rcases (keysA_bumpA_mem_iff _ _ _ _).mp hp with h1 | h1
      · exact hacc p h1
      · exact h1 ▸ Bool.eq_false_iff.mpr hex

theorem dir_counts_keys_excl (files ex : List String) :
    ∀ p ∈ keysA (dir_counts_of files ex), isExcludedDir ex p = false :=
  dir_counts_loop_keys_excl ex files [] (by simp [keysA])

theorem overflow_loop_eq (T : Nat) (dcl : List (String × Nat))
    (acc : List (String × Nat) × List String) :
    dcl.foldl (overflowStep T) acc =
      ((dcl.filter (fun e => e.2 < T)).foldl bumpParent acc.1,
        acc.2 ++ (dcl.filter (fun e => e.2 < T)).map Prod.fst) := by
  induction dcl generalizing acc with
  | nil => simp
  | cons e rest ih =>
    simp only [List.foldl_cons, List.filter_cons]
    by_cases hb : e.2 < T
    · rw [show overflowStep T acc e = (bumpA acc.1 (pparent e.1) e.2, acc.2 ++ [e.1]) by
        unfold overflowStep; rw [if_pos hb]]
      rw [ih]
      simp [hb, bumpParent]
    · rw [show overflowStep T acc e = acc by unfold overflowStep; rw [if_neg hb]]
      rw [ih]
      simp [hb]

theorem overflowBelow_eq (dc : List (String × Nat)) (T : Nat) :
    overflowBelow dc T =
      ((dc.filter (fun e => e.2 < T)).foldl bumpParent [],
        (dc.filter (fun e => e.2 < T)).map Prod.fst) := by
  unfold overflowBelow
  rw [overflow_loop_eq]
  simp

theorem bumpParent_loop_getD (l : List (String × Nat)) (m0 : List (String × Nat))
    (p : String) :
    (getA (l.foldl bumpParent m0) p).getD 0 =
      (getA m0 p).getD 0 + ((l.filter (fun e => pparent e.1 = p)).map Prod.snd).sum := by
  induction l generalizing m0 with
  | nil => simp
  | cons e rest ih =>
    simp only [List.foldl_cons, List.filter_cons]
    by_cases hp : pparent e.1 = p
    · rw [ih]
      unfold bumpParent
      rw [hp, getA_bumpA_self]
      simp [hp]
      omega
    · rw [ih]
      unfold bumpParent
      rw [getA_bumpA_ne _ _ _ _ hp]
      simp [hp]

theorem bumpParent_loop_nodup (l : List (String × Nat)) (m0 : List (String × Nat))
    (h : (keysA m0).Nodup) : (keysA (l.foldl bumpParent m0)).Nodup := by
  induction l generalizing m0 with
  | nil => exact h
  | cons e rest ih => exact ih _ (keysA_bumpA_nodup _ _ _ h)

theorem bumpParent_loop_keys (l : List (String × Nat)) (m0 : List (String × Nat))
    (p : String) (hp : p ∈ keysA (l.foldl bumpParent m0)) :
    p ∈ keysA m0 ∨ ∃ e ∈ l, p = pparent e.1 := by
  induction l generalizing m0 with
  | nil => exact Or.inl hp
  | cons e rest ih =>
    rcases ih _ hp with h1 | ⟨e', he', hpe⟩
    · rcases (keysA_bumpA_mem_iff _ _ _ _).mp h1 with h2 | h2
      · exact Or.inl h2
      · exact Or.inr ⟨e, List.mem_cons_self e rest, h2⟩
    · exact Or.inr ⟨e', List.mem_cons_of_mem e he', hpe⟩

theorem overflow_nodup (dc : List (String × Nat)) (T : Nat) :
    (keysA (overflowBelow dc T).1).Nodup := by
  rw [overflowBelow_eq]
  exact bumpParent_loop_nodup _ _ (by simp [keysA])

theorem overflow_getD (dc : List (String × Nat)) (T : Nat) (p : String) :
    (getA (overflowBelow dc T).1 p).getD 0 =
      (((dc.filter (fun e => e.2 < T)).filter (fun e => pparent e.1 = p)).map
        Prod.snd).sum := by
  rw [overflowBelow_eq]
  have h := bumpParent_loop_getD (dc.filter (fun e => e.2 < T)) [] p
  rw [show (getA ([] : List (String × Nat)) p).getD 0 = 0 from rfl, Nat.zero_add] at h
  exact h

theorem overflow_keys (dc : List (String × Nat)) (T : Nat) (p : String)
    (hp : p ∈ keysA (overflowBelow dc T).1) : ∃ e ∈ dc, p = pparent e.1 := by
  rw [overflowBelow_eq] at hp
  rcases bumpParent_loop_keys _ _ p hp with h1 | ⟨e, he, hpe⟩
  · simp [keysA] at h1
  · exact ⟨e, List.mem_of_mem_filter he, hpe⟩

theorem pass1_loop_not_mem (dc : List (String × Nat)) (below : List String) (T : Nat)
    (pol : List (String × Nat))
    (acc : List (String × Nat) × List (String × AggInfo) × List String)
    (p : String) (hp : p ∉ keysA pol) :
    getA (pol.foldl (pass1Step dc below T) acc).1 p = getA acc.1 p ∧
      getA (pol.foldl (pass1Step dc below T) acc).2.1 p = getA acc.2.1 p := by
  induction pol generalizing acc with
  | nil => exact ⟨rfl, rfl⟩
  | cons e rest ih =>
    have hne : e.1 ≠ p := fun hc => hp ((keysA_cons_mem e rest p).mpr (Or.inl hc.symm))
    have hrest : p ∉ keysA rest := fun hc => hp ((keysA_cons_mem e rest p).mpr (Or.inr hc))
    simp only [List.foldl_cons]
    obtain ⟨ih1, ih2⟩ := ih (pass1Step dc below T acc e) hrest
    refine ⟨?_, ?_⟩
    · rw [ih1]
      unfold pass1Step
      split
      · exact getA_setA_ne _ _ _ _ hne
      · rfl
    · rw [ih2]
      unfold pass1Step
      split
      · exact getA_setA_ne _ _ _ _ hne
      · rfl

theorem pass1_loop_mem (dc : List (String × Nat)) (below : List String) (T : Nat)
    (pol : List (String × Nat))
    (acc : List (String × Nat) × List (String × AggInfo) × List String)
    (p : String) (o : Nat)
    (hnd : (keysA pol).Nodup) (hmem : (p, o) ∈ pol) :
    getA (pol.foldl (pass1Step dc below T) acc).1 p =
      (if T ≤ (getA dc p).getD 0 + o then some ((getA dc p).getD 0 + o)
       else getA acc.1 p) ∧
      getA (pol.foldl (pass1Step dc below T) acc).2.1 p =
        (if T ≤ (getA dc p).getD 0 + o then
          some ⟨(getA dc p).getD 0, o, (below.filter (fun d => pparent d = p)).length⟩
        else getA acc.2.1 p) := by
  induction pol generalizing acc with
  | nil => simp at hmem
  | cons e rest ih =>
    obtain ⟨q, w⟩ := e
    obtain ⟨hhd, hnd'⟩ := List.nodup_cons.mp hnd
    simp only [List.foldl_cons]
    rcases List.mem_cons.mp hmem with h1 | h1
    · have hp1 : p = q := congrArg Prod.fst h1
      have ho : o = w := congrArg Prod.snd h1
      subst hp1
      subst ho
      have hrest : p ∉ keysA rest := by simpa [keysA] using hhd
      obtain ⟨hn1, hn2⟩ :=
        pass1_loop_not_mem dc below T rest (pass1Step dc below T acc (p, o)) p hrest
      rw [hn1, hn2]
      by_cases hT : T ≤ (getA dc p).getD 0 + o
      · have hstep : pass1Step dc below T acc (p, o) =
            (setA acc.1 p ((getA dc p).getD 0 + o),
              setA acc.2.1 p
                ⟨(getA dc p).getD 0, o, (below.filter (fun d => pparent d = p)).length⟩,
              acc.2.2 ++ below.filter (fun d => pparent d = p)) := by
          unfold pass1Step
          rw [if_pos hT]
        rw [hstep]
        simp [getA_setA_self, hT]
      · have hstep : pass1Step dc below T acc (p, o) = acc := by
          unfold pass1Step
          rw [if_neg hT]
        rw [hstep, if_neg hT, if_neg hT]
        exact ⟨rfl, rfl⟩
    · have hpq : q ≠ p := by
        intro hc
        subst hc
        exact hhd (by simpa [keysA] using List.mem_map_of_mem Prod.fst h1)
      obtain ⟨ih1, ih2⟩ := ih (pass1Step dc below T acc (q, w)) hnd' h1
      have hstep1 : getA (pass1Step dc below T acc (q, w)).1 p = getA acc.1 p := by
        unfold pass1Step
        split
        · exact getA_setA_ne _ _ _ _ hpq
        · rfl
      have hstep2 : getA (pass1Step dc below T acc (q, w)).2.1 p = getA acc.2.1 p := by
        unfold pass1Step
        split
        · exact getA_setA_ne _ _ _ _ hpq
        · rfl
      rw [ih1, ih2, hstep1, hstep2]
      exact ⟨rfl, rfl⟩

theorem pass1_loop_inv (dc : List (String × Nat)) (below : List String) (T : Nat)
    (pol : List (String × Nat))
    (acc : List (String × Nat) × List (String × AggInfo) × List String)
    (p : String) (v : Nat)
    (h : getA (pol.foldl (pass1Step dc below T) acc).1 p = some v) :
    getA acc.1 p = some v ∨
      ∃ o, (p, o) ∈ pol ∧ T ≤ (getA dc p).getD 0 + o ∧ v = (getA dc p).getD 0 + o := by
  induction pol generalizing acc with
  | nil => exact Or.inl h
  | cons e rest ih =>
    obtain ⟨q, w⟩ := e
    simp only [List.foldl_cons] at h
    rcases ih _ h with h1 | ⟨o, ho, hT, hv⟩
    · by_cases hc : T ≤ (getA dc q).getD 0 + w
      · have hstep : (pass1Step dc below T acc (q, w)).1 =
            setA acc.1 q ((getA dc q).getD 0 + w) := by
          unfold pass1Step
          rw [if_pos hc]
        rw [hstep] at h1
        by_cases hq : q = p
        · subst hq
          rw [getA_setA_self] at h1
          exact Or.inr ⟨w, List.mem_cons_self _ _, hc, (Option.some_inj.mp h1).symm⟩
        · rw [getA_setA_ne _ _ _ _ hq] at h1
          exact Or.inl h1
      · have hstep : pass1Step dc below T acc (q, w) = acc := by
          unfold pass1Step
          rw [if_neg hc]
        rw [hstep] at h1
        exact Or.inl h1
    · exact Or.inr ⟨o, List.mem_cons_of_mem _ ho, hT, hv⟩

theorem pass1_loop_aggCh (dc : List (String × Nat)) (below : List String) (T : Nat)
    (pol : List (String × Nat))
    (acc : List (String × Nat) × List (String × AggInfo) × List String)
    (d : String) :
    d ∈ (pol.foldl (pass1Step dc below T) acc).2.2 ↔
      d ∈ acc.2.2 ∨
        ∃ e ∈ pol, T ≤ (getA dc e.1).getD 0 + e.2 ∧ pparent d = e.1 ∧ d ∈ below := by
  induction pol generalizing acc with
  | nil => simp
  | cons e rest ih =>
    simp only [List.foldl_cons]
    rw [ih]
    by_cases hT : T ≤ (getA dc e.1).getD 0 + e.2
    · have hstep : (pass1Step dc below T acc e).2.2 =
          acc.2.2 ++ below.filter (fun x => pparent x = e.1) := by
        unfold pass1Step
        rw [if_pos hT]
      rw [hstep]
      constructor
      · intro hcase
        rcases hcase with hmem | ⟨e', he', h3⟩
        · rcases List.mem_append.mp hmem with h4 | h4
          · exact Or.inl h4
          · refine Or.inr ⟨e, List.mem_cons_self _ _, hT, ?_, List.mem_of_mem_filter h4⟩
            simpa using List.of_mem_filter h4
        · exact Or.inr ⟨e', List.mem_cons_of_mem _ he', h3⟩
      · intro hcase
        rcases hcase with h4 | ⟨e', he', hT', hpe, hb⟩
        · exact Or.inl (List.mem_append_left _ h4)
        · rcases List.mem_cons.mp he' with h5 | h5
          · subst h5
            refine Or.inl (List.mem_append_right _ ?_)
            exact List.mem_filter.mpr ⟨hb, by simpa using hpe⟩
          · exact Or.inr ⟨e', h5, hT', hpe, hb⟩
    · have hstep : pass1Step dc below T acc e = acc := by
        unfold pass1Step
        rw [if_neg hT]
      rw [hstep]
      constructor
      · intro hcase
        rcases hcase with h4 | ⟨e', he', h3⟩
        · exact Or.inl h4
        · exact Or.inr ⟨e', List.mem_cons_of_mem _ he', h3⟩
      · intro hcase
        rcases hcase with h4 | ⟨e', he', hT', hpe, hb⟩
        · exact Or.inl h4
        · rcases List.mem_cons.mp he' with h5 | h5
          · subst h5
            exact absurd hT' hT
          · exact Or.inr ⟨e', h5, hT', hpe, hb⟩

theorem pass1_loop_sum (dc : List (String × Nat)) (below : List String) (T : Nat)
    (pol : List (String × Nat))
    (acc : List (String × Nat) × List (String × AggInfo) × List String)
    (hnd : (keysA pol).Nodup) (hfresh : ∀ e ∈ pol, getA acc.1 e.1 = none) :
    sumVals (pol.foldl (pass1Step dc below T) acc).1 =
      sumVals acc.1 +
        ((pol.filter (fun e => T ≤ (getA dc e.1).getD 0 + e.2)).map
          (fun e => (getA dc e.1).getD 0 + e.2)).sum := by
  induction pol generalizing acc with
  | nil => simp
  | cons e rest ih =>
    obtain ⟨hhd, hnd'⟩ := List.nodup_cons.mp hnd
    simp only [List.foldl_cons, List.filter_cons]
    have hfr := hfresh e (List.mem_cons_self e rest)
    by_cases hT : T ≤ (getA dc e.1).getD 0 + e.2
    · have hstep1 : (pass1Step dc below T acc e).1 =
          setA acc.1 e.1 ((getA dc e.1).getD 0 + e.2) := by
        unfold pass1Step
        rw [if_pos hT]
      have hfresh' : ∀ e' ∈ rest, getA (pass1Step dc below T acc e).1 e'.1 = none := by
        intro e' he'
        rw [hstep1]
        have hne : e.1 ≠ e'.1 := by
          intro hc
          exact hhd (by
            rw [hc]
            simpa [keysA] using List.mem_map_of_mem Prod.fst he')
        rw [getA_setA_ne _ _ _ _ hne]
        exact hfresh e' (List.mem_cons_of_mem _ he')
      rw [ih _ hnd' hfresh', hstep1, sumVals_setA_fresh _ _ _ hfr]
      simp [hT]
      omega
    · have hstep : pass1Step dc below T acc e = acc := by
        unfold pass1Step
        rw [if_neg hT]
      rw [hstep, ih _ hnd' (fun e' he' => hfresh e' (List.mem_cons_of_mem _ he'))]
      simp [hT]

theorem pass2_loop_not_mem (aggCh : List String) (dcl : List (String × Nat))
    (res : List (String × Nat)) (p : String) (hp : p ∉ keysA dcl) :
    getA (dcl.foldl (pass2Step aggCh) res) p = getA res p := by
  induction dcl generalizing res with
  | nil => rfl
  | cons e rest ih =>
    have hne : e.1 ≠ p := fun hc => hp ((keysA_cons_mem e rest p).mpr (Or.inl hc.symm))
    have hrest : p ∉ keysA rest := fun hc => hp ((keysA_cons_mem e rest p).mpr (Or.inr hc))
    simp only [List.foldl_cons]
    rw [ih _ hrest]
    unfold pass2Step
    split
    · exact getA_setA_ne _ _ _ _ hne
    · rfl

theorem pass2_loop_preserved (aggCh : List String) (dcl : List (String × Nat))
    (res : List (String × Nat)) (p : String) (v : Nat) (h : getA res p = some v) :
    getA (dcl.foldl (pass2Step aggCh) res) p = some v := by
  induction dcl generalizing res with
  | nil => exact h
  | cons e rest ih =>
    simp only [List.foldl_cons]
    apply ih
    unfold pass2Step
    split
    · rename_i hcond
      have hne : e.1 ≠ p := by
        intro hc
        rw [hc, h] at hcond
        exact Option.noConfusion hcond.2
      rw [getA_setA_ne _ _ _ _ hne]
      exact h
    · exact h

theorem pass2_loop_new (aggCh : List String) (dcl : List (String × Nat))
    (res : List (String × Nat)) (p : String) (c : Nat)
    (hnd : (keysA dcl).Nodup) (hmem : (p, c) ∈ dcl) (h : getA res p = none) :
    getA (dcl.foldl (pass2Step aggCh) res) p =
      if p ∈ aggCh then none else some c := by
  induction dcl generalizing res with
  | nil => simp at hmem
  | cons e rest ih =>
    obtain ⟨q, w⟩ := e
    obtain ⟨hhd, hnd'⟩ := List.nodup_cons.mp hnd
    simp only [List.foldl_cons]
    rcases List.mem_cons.mp hmem with h1 | h1
    · have hp1 : p = q := congrArg Prod.fst h1
      have hc1 : c = w := congrArg Prod.snd h1
      subst hp1
      subst hc1
      have hrest : p ∉ keysA rest := by simpa [keysA] using hhd
      rw [pass2_loop_not_mem _ _ _ _ hrest]
      by_cases hag : p ∈ aggCh
      · have hstep : pass2Step aggCh res (p, c) = res := by
          unfold pass2Step
          rw [if_neg (fun hcon => hcon.1 hag)]
        rw [hstep, if_pos hag]
        exact h
      · have hstep : pass2Step aggCh res (p, c) = setA res p c := by
          unfold pass2Step
          rw [if_pos ⟨hag, h⟩]
        rw [hstep, getA_setA_self, if_neg hag]
    · have hne : q ≠ p := by
        intro hc
        subst hc
        exact hhd (by simpa [keysA] using List.mem_map_of_mem Prod.fst h1)
      apply ih _ hnd' h1
      unfold pass2Step
      split
      · rw [getA_setA_ne _ _ _ _ hne]
        exact h
      · exact h

theorem pass2_loop_sum (aggCh : List String) (dcl : List (String × Nat))
    (res : List (String × Nat)) (hnd : (keysA dcl).Nodup) :
    sumVals (dcl.foldl (pass2Step aggCh) res) =
      sumVals res +
        ((dcl.filter (fun e => decide (e.1 ∉ aggCh) && (getA res e.1).isNone)).map
          Prod.snd).sum := by
  induction dcl generalizing res with
  | nil => simp
  | cons e rest ih =>
    obtain ⟨hhd, hnd'⟩ := List.nodup_cons.mp hnd
    simp only [List.foldl_cons, List.filter_cons]
    by_cases hcond : e.1 ∉ aggCh ∧ getA res e.1 = none
    · have hstep : pass2Step aggCh res e = setA res e.1 e.2 := by
        unfold pass2Step
        rw [if_pos hcond]
      have hfc : rest.filter
            (fun e' => decide (e'.1 ∉ aggCh) && (getA (setA res e.1 e.2) e'.1).isNone) =
          rest.filter (fun e' => decide (e'.1 ∉ aggCh) && (getA res e'.1).isNone) := by
        apply List.filter_congr
        intro e' he'
        have hne : e.1 ≠ e'.1 := by
          intro hc
          exact hhd (by
            rw [hc]
            simpa [keysA] using List.mem_map_of_mem Prod.fst he')
        rw [getA_setA_ne _ _ _ _ hne]
      rw [ih _ hnd', hstep, hfc, sumVals_setA_fresh _ _ _ hcond.2]
      have hbt : (decide (e.1 ∉ aggCh) && (getA res e.1).isNone) = true := by
        simp [hcond.1, hcond.2]
      simp only [hbt, if_true, List.map_cons, List.sum_cons]
      omega
    · have hstep : pass2Step aggCh res e = res := by
        unfold pass2Step
        rw [if_neg hcond]
      rw [hstep, ih _ hnd']
      have hbt : (decide (e.1 ∉ aggCh) && (getA res e.1).isNone) = false := by
        rcases Decidable.not_and_iff_or_not.mp hcond with h1 | h1
        · simp [Decidable.not_not.mp h1]
        · rcases ho : getA res e.1 with _ | v
          · exact absurd ho h1
          · simp [ho]
      rw [if_neg (by rw [hbt]; exact Bool.false_ne_true)]

theorem group_eq (files excluded : List String) (T : Nat) :
    group_files_by_directory files excluded T =
      (pass2 (dir_counts_of files excluded)
          (pass1 (dir_counts_of files excluded)
            (overflowBelow (dir_counts_of files excluded) T).1
            (overflowBelow (dir_counts_of files excluded) T).2 T).1
          (pass1 (dir_counts_of files excluded)
            (overflowBelow (dir_counts_of files excluded) T).1
            (overflowBelow (dir_counts_of files excluded) T).2 T).2.2,
        (pass1 (dir_counts_of files excluded)
          (overflowBelow (dir_counts_of files excluded) T).1
          (overflowBelow (dir_counts_of files excluded) T).2 T).2.1) :=
  rfl

theorem below_mem_dc (dc : List (String × Nat)) (T : Nat) (d : String)
    (hd : d ∈ (overflowBelow dc T).2) : ∃ c, (d, c) ∈ dc ∧ c < T := by
  rw [overflowBelow_eq] at hd
  simp only [List.mem_map] at hd
  obtain ⟨e, he, hde⟩ := hd
  exact ⟨e.2, by
    rw [← hde]
    exact List.mem_of_mem_filter he, by simpa using List.of_mem_filter he⟩

/-- Counterexample to C3: with files `a/f.py`, `a/b/g.py`, `a/b/c/h.py` and
threshold 2, the directory `a/b` is a below-threshold (count 1) child of the
reporting parent `a` (direct 1 + overflow 1 = 2 ≥ 2) — so it is one of `a`'s
absorbed children — yet it remains in the final result (with its own
combined count 2, as parent of `a/b/c`): absorbed children are **not**
always removed from the result. -/
theorem aggregation_absorbed_child_counterexample :
    getA (overflowBelow (dir_counts_of ["a/f.py", "a/b/g.py", "a/b/c/h.py"] []) 2).1
        "a" = some 1 ∧
      getA (dir_counts_of ["a/f.py", "a/b/g.py", "a/b/c/h.py"] []) "a" = some 1 ∧
      "a/b" ∈ (overflowBelow (dir_counts_of ["a/f.py", "a/b/g.py", "a/b/c/h.py"] []) 2).2 ∧
      pparent "a/b" = "a" ∧
      (group_files_by_directory ["a/f.py", "a/b/g.py", "a/b/c/h.py"] [] 2).1 =
        [("a", 2), ("a/b", 2)] := by
  decide

/-- **C3 (amended).**  Each below-threshold directory's count is attributed
to its own immediate parent only; every parent `p` whose direct count plus
received overflow `o` reaches the threshold appears in the result with
exactly the combined count — additive even when the parent is independently
above threshold — and carries `aggregationInfo {direct, from_children,
child_count}`; and each of its absorbed children is removed from the result
**unless** the child is itself a reporting aggregation parent (its own
direct count plus its own received overflow reaches the threshold), in
which case it remains, with its own combined count (the counterexample
forces this exception). -/
theorem aggregation_parent_amended (files excluded : List String) (T : Nat)
    (p : String) (o : Nat)
    (ho : getA (overflowBelow (dir_counts_of files excluded) T).1 p = some o)
    (hT : T ≤ (getA (dir_counts_of files excluded) p).getD 0 + o) :
    getA (group_files_by_directory files excluded T).1 p =
        some ((getA (dir_counts_of files excluded) p).getD 0 + o) ∧
      getA (group_files_by_directory files excluded T).2 p =
        some ⟨(getA (dir_counts_of files excluded) p).getD 0, o,
          ((overflowBelow (dir_counts_of files excluded) T).2.filter
            (fun d => pparent d = p)).length⟩ ∧
      ∀ d ∈ (overflowBelow (dir_counts_of files excluded) T).2,
        pparent d = p →
          ∀ v, getA (group_files_by_directory files excluded T).1 d = some v →
            ∃ o', getA (overflowBelow (dir_counts_of files excluded) T).1 d = some o' ∧
              T ≤ (getA (dir_counts_of files excluded) d).getD 0 + o' ∧
              v = (getA (dir_counts_of files excluded) d).getD 0 + o' := by
  rw [group_eq]
  have hndpo := overflow_nodup (dir_counts_of files excluded) T
  have hmem := getA_mem _ _ _ ho
  obtain ⟨hm1, hm2⟩ := pass1_loop_mem (dir_counts_of files excluded)
    (overflowBelow (dir_counts_of files excluded) T).2 T
    (overflowBelow (dir_counts_of files excluded) T).1 ([], [], []) p o hndpo hmem
  rw [if_pos hT] at hm1 hm2
  refine ⟨?_, ?_, ?_⟩
  · exact pass2_loop_preserved _ _ _ _ _ hm1
  · exact hm2
  · intro d hdbelow hdp v hv
    rcases hR1 : getA (pass1 (dir_counts_of files excluded)
        (overflowBelow (dir_counts_of files excluded) T).1
        (overflowBelow (dir_counts_of files excluded) T).2 T).1 d with _ | w
    · -- d not a reporting parent: pass2 cannot have produced `some v`
      exfalso
      have hagg : d ∈ (pass1 (dir_counts_of files excluded)
          (overflowBelow (dir_counts_of files excluded) T).1
          (overflowBelow (dir_counts_of files excluded) T).2 T).2.2 := by
        unfold pass1
        rw [pass1_loop_aggCh]
        exact Or.inr ⟨(p, o), hmem, hT, hdp, hdbelow⟩
      obtain ⟨c, hcdc, _⟩ := below_mem_dc _ _ _ hdbelow
      have := pass2_loop_new
        (pass1 (dir_counts_of files excluded)
          (overflowBelow (dir_counts_of files excluded) T).1
          (overflowBelow (dir_counts_of files excluded) T).2 T).2.2
        (dir_counts_of files excluded)
        (pass1 (dir_counts_of files excluded)
          (overflowBelow (dir_counts_of files excluded) T).1
          (overflowBelow (dir_counts_of files excluded) T).2 T).1
        d c (dir_counts_nodup files excluded) hcdc hR1
      rw [if_pos hagg] at this
      unfold pass2 at hv
      rw [this] at hv
      exact Option.noConfusion hv
    · have hsome : getA (pass2 (dir_counts_of files excluded)
          (pass1 (dir_counts_of files excluded)
            (overflowBelow (dir_counts_of files excluded) T).1
            (overflowBelow (dir_counts_of files excluded) T).2 T).1
          (pass1 (dir_counts_of files excluded)
            (overflowBelow (dir_counts_of files excluded) T).1
            (overflowBelow (dir_counts_of files excluded) T).2 T).2.2) d = some w :=
        pass2_loop_preserved _ _ _ _ _ hR1
      rw [hv] at hsome
      obtain rfl : v = w := Option.some_inj.mp hsome
      rcases pass1_loop_inv (dir_counts_of files excluded)
          (overflowBelow (dir_counts_of files excluded) T).2 T
          (overflowBelow (dir_counts_of files excluded) T).1 ([], [], []) d v hR1 with
        h1 | ⟨o', ho', hT', hv'⟩
      · exact absurd h1 (by simp [getA])
      · exact ⟨o', getA_of_mem_nodup _ _ _ hndpo ho', hT', hv'⟩

/-- Witness for the amended C3 at the spec's own example: three sibling
directories `src/x`, `src/y`, `src/z` with one file each, threshold 2,
parent `src` with no direct files — `src` reports combined count 3 with
`child_count` 3. -/
theorem aggregation_parent_amended_witness :
    (getA (overflowBelow
          (dir_counts_of ["src/x/a.py", "src/y/b.py", "src/z/c.py"] []) 2).1 "src" =
        some 3 ∧
      2 ≤ (getA (dir_counts_of ["src/x/a.py", "src/y/b.py", "src/z/c.py"] [])
        "src").getD 0 + 3) ∧
      getA (group_files_by_directory ["src/x/a.py", "src/y/b.py", "src/z/c.py"] [] 2).1
        "src" = some ((getA (dir_counts_of ["src/x/a.py", "src/y/b.py", "src/z/c.py"] [])
          "src").getD 0 + 3) :=
  ⟨⟨by decide, by decide⟩,
    (aggregation_parent_amended ["src/x/a.py", "src/y/b.py", "src/z/c.py"] [] 2 "src" 3
      (by decide) (by decide)).1⟩

/-! ## Aggregation conservation (C4 support) -/

theorem sum_filter_or (l : List (String × Nat)) (p q : String × Nat → Bool)
    (hdisj : ∀ e ∈ l, ¬(p e = true ∧ q e = true)) :
    ((l.filter (fun e => p e || q e)).map Prod.snd).sum =
      ((l.filter p).map Prod.snd).sum + ((l.filter q).map Prod.snd).sum := by
  induction l with
  | nil => simp
  | cons e rest ih =>
    have ihr := ih (fun e' he' => hdisj e' (List.mem_cons_of_mem _ he'))
    have hde := hdisj e (List.mem_cons_self _ _)
    rcases hp : p e with _ | _ <;> rcases hq : q e with _ | _ <;>
      simp only [List.filter_cons, hp, hq, Bool.false_or, Bool.true_or, Bool.or_self,
        if_true, if_false, List.map_cons, List.sum_cons] <;>
      simp_all <;> omega

theorem sum_filter_complement (l : List (String × Nat)) (p : String × Nat → Bool) :
    ((l.filter p).map Prod.snd).sum +
        ((l.filter (fun e => !(p e))).map Prod.snd).sum =
      sumVals l := by
  induction l with
  | nil => simp [sumVals]
  | cons e rest ih =>
    rcases hp : p e with _ | _ <;>
      simp only [List.filter_cons, hp, Bool.not_false, Bool.not_true, if_true, if_false,
        List.map_cons, List.sum_cons, sumVals] <;>
      simp_all [sumVals] <;> omega

theorem sum_filter_key (m : List (String × Nat)) (p : String)
    (hnd : (keysA m).Nodup) :
    ((m.filter (fun e => e.1 = p)).map Prod.snd).sum = (getA m p).getD 0 := by
  induction m with
  | nil => simp [getA]
  | cons e rest ih =>
    obtain ⟨hhd, hnd'⟩ := List.nodup_cons.mp hnd
    by_cases hp : e.1 = p
    · have hnone : getA rest p = none := by
        rw [getA_eq_none_iff]
        rw [hp] at hhd
        exact hhd
      have hfe : rest.filter (fun e' => e'.1 = p) = [] := by
        rw [List.filter_eq_nil_iff]
        intro e' he'
        simp only [decide_eq_true_eq]
        intro hc
        rw [getA_eq_none_iff] at hnone
        exact hnone (by
          rw [← hc]
          simpa [keysA] using List.mem_map_of_mem Prod.fst he')
      simp only [List.filter_cons, hp, decide_True, if_true, List.map_cons,
        List.sum_cons, getA, if_pos hp]
      rw [hfe]
      simp
    · simp only [List.filter_cons, hp, decide_False, if_false, getA, if_neg hp]
      exact ih hnd'

theorem sum_map_getD (dc : List (String × Nat)) (L : List String)
    (hL : L.Nodup) (hnd : (keysA dc).Nodup) :
    (L.map (fun p => (getA dc p).getD 0)).sum =
      ((dc.filter (fun e => decide (e.1 ∈ L))).map Prod.snd).sum := by
  induction L with
  | nil => simp
  | cons p L' ih =>
    obtain ⟨hhd, hL'⟩ := List.nodup_cons.mp hL
    simp only [List.map_cons, List.sum_cons]
    rw [ih hL']
    have hcong : dc.filter (fun e => decide (e.1 ∈ p :: L')) =
        dc.filter (fun e => (decide (e.1 = p)) || decide (e.1 ∈ L')) := by
      apply List.filter_congr
      intro e _
      simp [List.mem_cons]
    rw [hcong, sum_filter_or]
    · rw [show dc.filter (fun e => decide (e.1 = p)) =
          dc.filter (fun e => e.1 = p) from rfl]
      rw [sum_filter_key dc p hnd]
    · intro e _
      intro hcon
      simp only [decide_eq_true_eq] at hcon
      exact hhd (hcon.1 ▸ hcon.2)

theorem sum_map_inner_filter (bps : List (String × Nat)) (L : List String)
    (hL : L.Nodup) :
    (L.map (fun p => ((bps.filter (fun e => pparent e.1 = p)).map Prod.snd).sum)).sum =
      ((bps.filter (fun e => decide (pparent e.1 ∈ L))).map Prod.snd).sum := by
  induction L with
  | nil => simp
  | cons p L' ih =>
    obtain ⟨hhd, hL'⟩ := List.nodup_cons.mp hL
    simp only [List.map_cons, List.sum_cons]
    rw [ih hL']
    have hcong : bps.filter (fun e => decide (pparent e.1 ∈ p :: L')) =
        bps.filter (fun e => (decide (pparent e.1 = p)) || decide (pparent e.1 ∈ L')) := by
      apply List.filter_congr
      intro e _
      simp [List.mem_cons]
    rw [hcong, sum_filter_or]
    · intro e _
      intro hcon
      simp only [decide_eq_true_eq] at hcon
      exact hhd (hcon.1 ▸ hcon.2)

theorem is_claude_md_recent_empty (dir_path cwd : String) (cooldown : Int)
    (now : Int) :
    is_claude_md_recent dir_path cwd cooldown emptySessionState now = false :=
  rfl

theorem classify_loop_sum_empty (threshold : Nat) (cooldown : Int) (cwd : String)
    (now : Int) (dcl : List (String × Nat)) (b : CheckBuckets) :
    sumVals ((dcl.foldl (bucketStep threshold cooldown cwd emptySessionState now)
          b).candidate_dirs) +
        sumVals ((dcl.foldl (bucketStep threshold cooldown cwd emptySessionState now)
          b).below_threshold_dirs) =
      sumVals b.candidate_dirs + sumVals b.below_threshold_dirs + sumVals dcl := by
  induction dcl generalizing b with
  | nil => simp [sumVals]
  | cons e rest ih =>
    simp only [List.foldl_cons]
    by_cases hb : e.2 < threshold
    · have hstep : bucketStep threshold cooldown cwd emptySessionState now b e =
          { b with below_threshold_dirs := b.below_threshold_dirs ++ [e] } := by
        unfold bucketStep
        rw [if_pos hb]
      rw [hstep, ih]
      simp [sumVals]
      omega
    · have hstep : bucketStep threshold cooldown cwd emptySessionState now b e =
          { b with candidate_dirs := b.candidate_dirs ++ [e] } := by
        unfold bucketStep
        rw [if_neg hb, if_neg (by simp [emptySessionState]),
          if_neg (by rw [is_claude_md_recent_empty]; exact Bool.false_ne_true)]
      rw [hstep, ih]
      simp [sumVals]
      omega

theorem reportingParentB_iff (dc : List (String × Nat)) (T : Nat) (p : String) :
    reportingParentB dc T p = true ↔
      ∃ o, getA (overflowBelow dc T).1 p = some o ∧
        T ≤ (getA dc p).getD 0 + o := by
  unfold reportingParentB
  rcases h : getA (overflowBelow dc T).1 p with _ | o
  · simp
  · simp [h]

theorem pass1_result_isSome_iff (dc : List (String × Nat)) (T : Nat) (p : String) :
    (getA (pass1 dc (overflowBelow dc T).1 (overflowBelow dc T).2 T).1 p).isSome =
      reportingParentB dc T p := by
  rcases hrp : reportingParentB dc T p with _ | _
  · rcases hg : getA (pass1 dc (overflowBelow dc T).1 (overflowBelow dc T).2 T).1 p
        with _ | v
    · simp
    · exfalso
      rcases pass1_loop_inv dc (overflowBelow dc T).2 T (overflowBelow dc T).1
          ([], [], []) p v hg with h1 | ⟨o, ho, hT, _⟩
      · exact absurd h1 (by simp [getA])
      · rw [show reportingParentB dc T p = true from (reportingParentB_iff dc T p).mpr
          ⟨o, getA_of_mem_nodup _ _ _ (overflow_nodup dc T) ho, hT⟩] at hrp
        exact Bool.noConfusion hrp
  · obtain ⟨o, ho, hT⟩ := (reportingParentB_iff dc T p).mp hrp
    obtain ⟨h1, _⟩ := pass1_loop_mem dc (overflowBelow dc T).2 T
      (overflowBelow dc T).1 ([], [], []) p o (overflow_nodup dc T) (getA_mem _ _ _ ho)
    rw [if_pos hT] at h1
    unfold pass1
    rw [h1]
    rfl

theorem pass1_aggCh_iff (dc : List (String × Nat)) (T : Nat) (d : String) :
    d ∈ (pass1 dc (overflowBelow dc T).1 (overflowBelow dc T).2 T).2.2 ↔
      d ∈ (overflowBelow dc T).2 ∧ reportingParentB dc T (pparent d) = true := by
  unfold pass1
  rw [pass1_loop_aggCh]
  simp only [List.not_mem_nil, false_or]
  constructor
  · rintro ⟨e, he, hT, hpe, hb⟩
    refine ⟨hb, (reportingParentB_iff dc T (pparent d)).mpr ⟨e.2, ?_, ?_⟩⟩
    · rw [hpe]
      exact getA_of_mem_nodup _ _ _ (overflow_nodup dc T) (by
        rw [show (e.1, e.2) = e from rfl]
        exact he)
    · rw [hpe]
      exact hT
  · rintro ⟨hb, hrp⟩
    obtain ⟨o, ho, hT⟩ := (reportingParentB_iff dc T (pparent d)).mp hrp
    exact ⟨(pparent d, o), getA_mem _ _ _ ho, hT, rfl, hb⟩

theorem mem_below_iff (dc : List (String × Nat)) (T : Nat) (e : String × Nat)
    (hnd : (keysA dc).Nodup) (he : e ∈ dc) :
    e.1 ∈ (overflowBelow dc T).2 ↔ e.2 < T := by
  rw [overflowBelow_eq]
  simp only [List.mem_map]
  constructor
  · rintro ⟨e', he', heq⟩
    have he'dc := List.mem_of_mem_filter he'
    have hlt : e'.2 < T := by simpa using List.of_mem_filter he'
    have h1 : (e.1, e'.2) ∈ dc := by
      rw [← heq]
      rw [show (e'.1, e'.2) = e' from rfl]
      exact he'dc
    have h2 : (e.1, e.2) ∈ dc := by
      rw [show (e.1, e.2) = e from rfl]
      exact he
    rw [← mem_entry_unique dc e.1 e'.2 e.2 hnd h1 h2]
    exact hlt
  · intro hlt
    exact ⟨e, List.mem_filter.mpr ⟨he, by simpa using hlt⟩, rfl⟩

theorem sum_pass_chain (dc : List (String × Nat)) (T : Nat)
    (hnu : (keysA dc).Nodup)
    (hnochain : ∀ e ∈ dc, ¬(reportingParentB dc T e.1 = true ∧ e.2 < T ∧
        reportingParentB dc T (pparent e.1) = true)) :
    sumVals (pass2 dc (pass1 dc (overflowBelow dc T).1 (overflowBelow dc T).2 T).1
        (pass1 dc (overflowBelow dc T).1 (overflowBelow dc T).2 T).2.2) =
      sumVals dc := by
  have hnpo : (keysA (overflowBelow dc T).1).Nodup := overflow_nodup dc T
  -- Step A: the pass-2 sum.
  have hA : sumVals (pass2 dc
        (pass1 dc (overflowBelow dc T).1 (overflowBelow dc T).2 T).1
        (pass1 dc (overflowBelow dc T).1 (overflowBelow dc T).2 T).2.2) =
      sumVals (pass1 dc (overflowBelow dc T).1 (overflowBelow dc T).2 T).1 +
        ((dc.filter (fun e =>
          decide (e.1 ∉ (pass1 dc (overflowBelow dc T).1 (overflowBelow dc T).2 T).2.2)
            && (getA (pass1 dc (overflowBelow dc T).1
                (overflowBelow dc T).2 T).1 e.1).isNone)).map Prod.snd).sum :=
    pass2_loop_sum _ _ _ hnu
  -- Step B: the pass-1 sum.
  have hB : sumVals (pass1 dc (overflowBelow dc T).1 (overflowBelow dc T).2 T).1 =
      (((overflowBelow dc T).1.filter
          (fun e => T ≤ (getA dc e.1).getD 0 + e.2)).map
        (fun e => (getA dc e.1).getD 0 + e.2)).sum := by
    have := pass1_loop_sum dc (overflowBelow dc T).2 T (overflowBelow dc T).1
      ([], [], []) hnpo (fun e _ => rfl)
    simpa [sumVals] using this
  -- The reporting-parent key list.
  have hLnd : ((((overflowBelow dc T).1.filter
      (fun e => T ≤ (getA dc e.1).getD 0 + e.2)).map Prod.fst)).Nodup :=
    List.Nodup.sublist (List.Sublist.map Prod.fst (List.filter_sublist _)) hnpo
  have hLiff : ∀ q, q ∈ (((overflowBelow dc T).1.filter
      (fun e => T ≤ (getA dc e.1).getD 0 + e.2)).map Prod.fst) ↔
      reportingParentB dc T q = true := by
    intro q
    constructor
    · intro hq
      obtain ⟨e, he, heq⟩ := List.mem_map.mp hq
      have hrep : T ≤ (getA dc e.1).getD 0 + e.2 := by simpa using List.of_mem_filter he
      refine (reportingParentB_iff dc T q).mpr ⟨e.2, ?_, ?_⟩
      · rw [← heq]
        exact getA_of_mem_nodup _ _ _ hnpo (by
          rw [show (e.1, e.2) = e from rfl]
          exact List.mem_of_mem_filter he)
      · rw [← heq]
        exact hrep
    · intro hq
      obtain ⟨o, ho, hT⟩ := (reportingParentB_iff dc T q).mp hq
      refine List.mem_map.mpr ⟨(q, o), List.mem_filter.mpr ⟨getA_mem _ _ _ ho, ?_⟩, rfl⟩
      simpa using hT
  have hLq : ∀ q, decide (q ∈ (((overflowBelow dc T).1.filter
      (fun e => T ≤ (getA dc e.1).getD 0 + e.2)).map Prod.fst)) =
      reportingParentB dc T q := by
    intro q
    rcases hh : reportingParentB dc T q with _ | _
    · simp only [decide_eq_false_iff_not]
      intro hc
      exact absurd (hh ▸ (hLiff q).mp hc) Bool.false_ne_true
    · exact decide_eq_true ((hLiff q).mpr hh)
  -- Step D: the direct-count part of the pass-1 sum.
  have hD : (((overflowBelow dc T).1.filter
        (fun e => T ≤ (getA dc e.1).getD 0 + e.2)).map
      (fun e => (getA dc e.1).getD 0)).sum =
      ((dc.filter (fun e => reportingParentB dc T e.1)).map Prod.snd).sum := by
    have hmm : ((overflowBelow dc T).1.filter
          (fun e => T ≤ (getA dc e.1).getD 0 + e.2)).map
        (fun e => (getA dc e.1).getD 0) =
        ((((overflowBelow dc T).1.filter
          (fun e => T ≤ (getA dc e.1).getD 0 + e.2)).map Prod.fst).map
            (fun p => (getA dc p).getD 0)) := by
      rw [List.map_map]
      rfl
    rw [hmm, sum_map_getD _ _ hLnd hnu]
    congr 1
    apply congrArg
    apply List.filter_congr
    intro e _
    exact hLq e.1
  -- Step E: the overflow part of the pass-1 sum.
  have hE : (((overflowBelow dc T).1.filter
        (fun e => T ≤ (getA dc e.1).getD 0 + e.2)).map Prod.snd).sum =
      ((dc.filter (fun e =>
        reportingParentB dc T (pparent e.1) && decide (e.2 < T))).map Prod.snd).sum := by
    have hpt : ((overflowBelow dc T).1.filter
          (fun e => T ≤ (getA dc e.1).getD 0 + e.2)).map Prod.snd =
        ((overflowBelow dc T).1.filter
          (fun e => T ≤ (getA dc e.1).getD 0 + e.2)).map
            (fun e => (((dc.filter (fun x => x.2 < T)).filter
              (fun x => pparent x.1 = e.1)).map Prod.snd).sum) := by
      apply List.map_congr_left
      intro e he
      have hepo : e ∈ (overflowBelow dc T).1 := List.mem_of_mem_filter he
      have hgd : getA (overflowBelow dc T).1 e.1 = some e.2 :=
        getA_of_mem_nodup _ _ _ hnpo (by
          rw [show (e.1, e.2) = e from rfl]
          exact hepo)
      have := overflow_getD dc T e.1
      rw [hgd] at this
      exact this
    rw [hpt]
    have hmm : ((overflowBelow dc T).1.filter
          (fun e => T ≤ (getA dc e.1).getD 0 + e.2)).map
        (fun e => (((dc.filter (fun x => x.2 < T)).filter
          (fun x => pparent x.1 = e.1)).map Prod.snd).sum) =
        ((((overflowBelow dc T).1.filter
          (fun e => T ≤ (getA dc e.1).getD 0 + e.2)).map Prod.fst).map
            (fun p => (((dc.filter (fun x => x.2 < T)).filter
              (fun x => pparent x.1 = p)).map Prod.snd).sum)) := by
      rw [List.map_map]
      rfl
    rw [hmm, sum_map_inner_filter _ _ hLnd]
    have hff : ((dc.filter (fun x => x.2 < T)).filter
          (fun e => decide (pparent e.1 ∈ (((overflowBelow dc T).1.filter
            (fun e => T ≤ (getA dc e.1).getD 0 + e.2)).map Prod.fst)))) =
        dc.filter (fun e =>
          reportingParentB dc T (pparent e.1) && decide (e.2 < T)) := by
      rw [List.filter_filter]
      apply List.filter_congr
      intro e _
      rw [hLq (pparent e.1)]
    rw [hff]
  -- Step F: rewrite the pass-2 leftover condition.
  have hF : (dc.filter (fun e =>
        decide (e.1 ∉ (pass1 dc (overflowBelow dc T).1 (overflowBelow dc T).2 T).2.2)
          && (getA (pass1 dc (overflowBelow dc T).1
              (overflowBelow dc T).2 T).1 e.1).isNone)) =
      dc.filter (fun e =>
        !(reportingParentB dc T e.1 ||
          (reportingParentB dc T (pparent e.1) && decide (e.2 < T)))) := by
    apply List.filter_congr
    intro e he
    have h1 : (getA (pass1 dc (overflowBelow dc T).1
        (overflowBelow dc T).2 T).1 e.1).isNone = !(reportingParentB dc T e.1) := by
      rw [← pass1_result_isSome_iff]
      rcases getA (pass1 dc (overflowBelow dc T).1 (overflowBelow dc T).2 T).1 e.1
        with _ | v <;> rfl
    have h2 : decide
        (e.1 ∉ (pass1 dc (overflowBelow dc T).1 (overflowBelow dc T).2 T).2.2) =
        !(reportingParentB dc T (pparent e.1) && decide (e.2 < T)) := by
      rcases hrp : (reportingParentB dc T (pparent e.1) && decide (e.2 < T))
          with _ | _
      · simp only [Bool.not_false]
        apply decide_eq_true
        intro hc
        obtain ⟨hbelow, hrep⟩ := (pass1_aggCh_iff dc T e.1).mp hc
        have hlt : e.2 < T := (mem_below_iff dc T e hnu he).mp hbelow
        rw [hrep] at hrp
        simp [hlt] at hrp
      · simp only [Bool.not_true]
        apply decide_eq_false
        simp only [Decidable.not_not]
        rcases Bool.and_eq_true_iff.mp hrp with ⟨hr1, hr2⟩
        exact (pass1_aggCh_iff dc T e.1).mpr
          ⟨(mem_below_iff dc T e hnu he).mpr (by simpa using hr2), hr1⟩
    rw [h1, h2]
    rcases reportingParentB dc T e.1 with _ | _ <;>
      rcases (reportingParentB dc T (pparent e.1) && decide (e.2 < T)) with _ | _ <;>
      rfl
  -- Step G: disjointness and complement.
  have hdisj : ∀ e ∈ dc, ¬((reportingParentB dc T e.1 : Bool) = true ∧
      (reportingParentB dc T (pparent e.1) && decide (e.2 < T)) = true) := by
    intro e he hcon
    rcases Bool.and_eq_true_iff.mp hcon.2 with ⟨hr1, hr2⟩
    exact hnochain e he ⟨hcon.1, by simpa using hr2, hr1⟩
  have hor := sum_filter_or dc (fun e => reportingParentB dc T e.1)
    (fun e => reportingParentB dc T (pparent e.1) && decide (e.2 < T)) hdisj
  have hcomp := sum_filter_complement dc
    (fun e => reportingParentB dc T e.1 ||
      (reportingParentB dc T (pparent e.1) && decide (e.2 < T)))
  beta_reduce at hor
  rw [hA, hB, List.sum_map_add, hD, hE, hF]
  omega

/-- Counterexample to C4: files `a/f.py`, `a/b/g.py`, `a/b/c/h.py` (three
distinct, non-excluded files) with threshold 2 and a fresh session state
yield candidate directories `a` (count 2) and `a/b` (count 2) and no
below-threshold leftovers: the reported total is 4, not 3 — `a/b`'s direct
file is counted both in `a`'s overflow and in `a/b`'s own combined count. -/
theorem aggregation_conservation_counterexample :
    sumVals (classifyDirs
          (group_files_by_directory ["a/f.py", "a/b/g.py", "a/b/c/h.py"] [] 2).1
          2 30 "/r" emptySessionState 0).candidate_dirs +
        sumVals (classifyDirs
          (group_files_by_directory ["a/f.py", "a/b/g.py", "a/b/c/h.py"] [] 2).1
          2 30 "/r" emptySessionState 0).below_threshold_dirs = 4 ∧
      (["a/f.py", "a/b/g.py", "a/b/c/h.py"].filter
        (fun f => !(isExcludedDir [] (pparent (normpath f))))).length = 3 := by
  decide

/-- **C4 (amended).**  For every file list and threshold, provided no
directory is simultaneously a reporting aggregation parent and a
below-threshold child of another reporting parent (no *chained*
aggregation — the situation the counterexample exhibits), the sum of the
counts of the final candidate directories plus the counts of the dropped
below-threshold leftover directories, under a fresh session state, equals
the number of non-excluded changed files: aggregation neither double-counts
nor silently loses a file.  (With chained aggregation the direct counts of
the doubly-involved directories are reported twice; no file is ever
lost.) -/
theorem aggregation_conservation_amended (files excluded : List String) (T : Nat)
    (cooldown : Int) (cwd : String) (now : Int)
    (hnochain : ∀ e ∈ dir_counts_of files excluded,
      ¬(reportingParentB (dir_counts_of files excluded) T e.1 = true ∧ e.2 < T ∧
        reportingParentB (dir_counts_of files excluded) T (pparent e.1) = true)) :
    sumVals (classifyDirs (group_files_by_directory files excluded T).1 T cooldown
          cwd emptySessionState now).candidate_dirs +
        sumVals (classifyDirs (group_files_by_directory files excluded T).1 T cooldown
          cwd emptySessionState now).below_threshold_dirs =
      (files.filter (fun f => !(isExcludedDir excluded (pparent (normpath f))))).length := by
  unfold classifyDirs
  rw [classify_loop_sum_empty]
  have hz1 : sumVals (CheckBuckets.candidate_dirs ⟨[], [], [], []⟩) = 0 := rfl
  rw [hz1, group_eq]
  rw [sum_pass_chain _ _ (dir_counts_nodup files excluded) hnochain, dir_counts_sum]
  omega

/-- Witness for the amended C4 at the spec's sibling-aggregation example
(`src/x`, `src/y`, `src/z`, threshold 2): the reported total is 3, exactly
the number of changed files. -/
theorem aggregation_conservation_amended_witness :
    (∀ e ∈ dir_counts_of ["src/x/a.py", "src/y/b.py", "src/z/c.py"] [],
      ¬(reportingParentB (dir_counts_of ["src/x/a.py", "src/y/b.py", "src/z/c.py"] [])
          2 e.1 = true ∧ e.2 < 2 ∧
        reportingParentB (dir_counts_of ["src/x/a.py", "src/y/b.py", "src/z/c.py"] [])
          2 (pparent e.1) = true)) ∧
      sumVals (classifyDirs
            (group_files_by_directory ["src/x/a.py", "src/y/b.py", "src/z/c.py"] [] 2).1
            2 30 "/r" emptySessionState 0).candidate_dirs +
          sumVals (classifyDirs
            (group_files_by_directory ["src/x/a.py", "src/y/b.py", "src/z/c.py"] [] 2).1
            2 30 "/r" emptySessionState 0).below_threshold_dirs = 3 :=
  ⟨by decide,
    (aggregation_conservation_amended ["src/x/a.py", "src/y/b.py", "src/z/c.py"] [] 2
      30 "/r" 0 (by decide)).trans (by decide)⟩

theorem classify_loop_candidates (th : Nat) (cd : Int) (cwd : String)
    (st : SessionState) (now : Int) (dcl : List (String × Nat)) (b : CheckBuckets) :
    ∀ e ∈ (dcl.foldl (bucketStep th cd cwd st now) b).candidate_dirs,
      e ∈ b.candidate_dirs ∨
        (e.1 ∉ st.suggested_directories ∧
          is_claude_md_recent e.1 cwd cd st now = false ∧ th ≤ e.2) := by
  induction dcl generalizing b with
  | nil => exact fun e he => Or.inl he
  | cons e0 rest ih =>
    intro e he
    simp only [List.foldl_cons] at he
    rcases ih _ e he with h1 | h1
    · by_cases hb : e0.2 < th
      · rw [show bucketStep th cd cwd st now b e0 =
            { b with below_threshold_dirs := b.below_threshold_dirs ++ [e0] } by
          unfold bucketStep; rw [if_pos hb]] at h1
        exact Or.inl h1
      · by_cases hs : e0.1 ∈ st.suggested_directories
        · rw [show bucketStep th cd cwd st now b e0 =
              { b with skipped_already_suggested :=
                b.skipped_already_suggested ++ [e0.1] } by
            unfold bucketStep; rw [if_neg hb, if_pos hs]] at h1
          exact Or.inl h1
        · by_cases hr : is_claude_md_recent e0.1 cwd cd st now = true
          · rw [show bucketStep th cd cwd st now b e0 =
                { b with skipped_dirs := b.skipped_dirs ++ [e0.1] } by
              unfold bucketStep; rw [if_neg hb, if_neg hs, if_pos hr]] at h1
            exact Or.inl h1
          · rw [show bucketStep th cd cwd st now b e0 =
                { b with candidate_dirs := b.candidate_dirs ++ [e0] } by
              unfold bucketStep; rw [if_neg hb, if_neg hs, if_neg hr]] at h1
            rcases List.mem_append.mp h1 with h2 | h2
            · exact Or.inl h2
            · obtain rfl : e = e0 := List.mem_singleton.mp h2
              exact Or.inr ⟨hs, Bool.eq_false_iff.mpr hr, Nat.le_of_not_lt hb⟩
    · exact Or.inr h1

theorem candidate_props (st : SessionState) (dir_counts : List (String × Nat))
    (threshold : Nat) (cooldown : Int) (cwd : String) (now : Int) (last_line : Nat)
    (e : String × Nat)
    (he : e ∈ (runCheck st dir_counts threshold cooldown cwd now last_line).1) :
    e.1 ∉ st.suggested_directories ∧
      is_claude_md_recent e.1 cwd cooldown st now = false ∧ threshold ≤ e.2 := by
  unfold runCheck at he
  split at he
  · simp at he
  · rcases classify_loop_candidates threshold cooldown cwd st now dir_counts
        ⟨[], [], [], []⟩ e he with h1 | h1
    · simp at h1
    · exact h1

/-- **C7.**  A directory stamped into `generationTimes` at time `T0` is
never returned as a candidate by a later check at time `now` with
`(now − T0)/60 < cooldownMinutes` — across process restarts too, since the
decision reads the recorded generation timestamp from the persisted session
state (not the generated file's mtime): `is_claude_md_recent` finds the
stamp and the cooldown filter drops the directory. -/
theorem cooldown_respected (st : SessionState) (dir_counts : List (String × Nat))
    (threshold : Nat) (cooldown : Int) (cwd : String) (now : Int) (last_line : Nat)
    (d : String) (T0 : Int)
    (hstamp : getA st.generation_times (normpath d) = some T0)
    (hcool : now - T0 < cooldown * 60) :
    d ∉ ((runCheck st dir_counts threshold cooldown cwd now last_line).1.map
      Prod.fst) := by
  intro hmem
  obtain ⟨e, he, heq⟩ := List.mem_map.mp hmem
  obtain ⟨_, hrec, _⟩ := candidate_props st dir_counts threshold cooldown cwd now
    last_line e he
  rw [heq] at hrec
  unfold is_claude_md_recent at hrec
  rw [hstamp] at hrec
  rw [show (some T0).orElse (fun _ => getA st.generation_times
      (normpath (if isAbs (normpath d) then normpath d
        else pjoin (normpath cwd) (normpath d)))) = some T0 from rfl] at hrec
  rw [show (match some T0 with
      | none => false
      | some gen => decide (now - gen < cooldown * 60)) =
        decide (now - T0 < cooldown * 60) from rfl] at hrec
  rw [decide_eq_true hcool] at hrec
  exact Bool.noConfusion hrec

/-- Witness for C7: `src` stamped at time 0, re-checked at time 600 s
(10 min) with a 30-minute cooldown — not a candidate. -/
theorem cooldown_respected_witness :
    (getA ({ last_processed_line := 10, suggested_directories := []
             generation_times := [("src", 0)]
             completion_cache := defaultCompletionCache } :
        SessionState).generation_times (normpath "src") = some 0 ∧
      ((600 : Int) - 0 < 30 * 60)) ∧
      "src" ∉ ((runCheck
        { last_processed_line := 10, suggested_directories := []
          generation_times := [("src", 0)]
          completion_cache := defaultCompletionCache }
        [("src", 5)] 2 30 "/r" 600 20).1.map Prod.fst) :=
  ⟨⟨by decide, by decide⟩,
    cooldown_respected
      { last_processed_line := 10, suggested_directories := []
        generation_times := [("src", 0)]
        completion_cache := defaultCompletionCache }
      [("src", 5)] 2 30 "/r" 600 20 "src" 0 (by decide) (by decide)⟩

theorem runCheck_suggested_mono (st : SessionState) (dir_counts : List (String × Nat))
    (threshold : Nat) (cooldown : Int) (cwd : String) (now : Int) (last_line : Nat)
    (d : String) (hd : d ∈ st.suggested_directories) :
    d ∈ (runCheck st dir_counts threshold cooldown cwd now last_line).2.suggested_directories := by
  unfold runCheck
  split
  · exact hd
  · exact List.mem_append_left _ hd

theorem runCheck_output_suggested (st : SessionState) (dir_counts : List (String × Nat))
    (threshold : Nat) (cooldown : Int) (cwd : String) (now : Int) (last_line : Nat)
    (d : String)
    (hd : d ∈ (runCheck st dir_counts threshold cooldown cwd now last_line).1.map
      Prod.fst) :
    d ∈ (runCheck st dir_counts threshold cooldown cwd now
      last_line).2.suggested_directories := by
  unfold runCheck at hd ⊢
  split at hd
  · simp at hd
  · rename_i hne
    rw [if_neg hne]
    exact List.mem_append_right _ hd

theorem runSeq_skip (st : SessionState) (inputs : List CheckInput) (d : String)
    (hd : d ∈ st.suggested_directories) (k : Nat) (outk : List (String × Nat))
    (hk : (runSeq st inputs).1.get? k = some outk) :
    d ∉ outk.map Prod.fst := by
  induction inputs generalizing st k with
  | nil => simp [runSeq] at hk
  | cons inp rest ih =>
    cases k with
    | zero =>
      simp only [runSeq, List.get?_cons_zero, Option.some_inj] at hk
      subst hk
      intro hmem
      obtain ⟨e, he, heq⟩ := List.mem_map.mp hmem
      obtain ⟨hns, _, _⟩ := candidate_props st inp.dir_counts inp.threshold
        inp.cooldown inp.cwd inp.now inp.last_line e he
      rw [heq] at hns
      exact hns hd
    | succ k' =>
      simp only [runSeq, List.get?_cons_succ] at hk
      exact ih _ (runCheck_suggested_mono st inp.dir_counts inp.threshold inp.cooldown
        inp.cwd inp.now inp.last_line d hd) k' hk

/-- **C5.**  For a fixed session-state record, no directory ever appears in
two distinct candidate-directory outputs across any sequence of checks:
every returned candidate is added to `suggested_directories` before being
returned, `suggested_directories` only grows, and every later check drops
directories already present in it, regardless of further edits. -/
theorem no_directory_suggested_twice (st : SessionState) (inputs : List CheckInput)
    (d : String) (i j : Nat) (hij : i < j)
    (outi outj : List (String × Nat))
    (hi : (runSeq st inputs).1.get? i = some outi)
    (hj : (runSeq st inputs).1.get? j = some outj)
    (hdi : d ∈ outi.map Prod.fst) :
    d ∉ outj.map Prod.fst := by
  induction inputs generalizing st i j with
  | nil => simp [runSeq] at hi
  | cons inp rest ih =>
    cases i with
    | zero =>
      simp only [runSeq, List.get?_cons_zero, Option.some_inj] at hi
      subst hi
      obtain ⟨j', rfl⟩ : ∃ j', j = j' + 1 := ⟨j - 1, by omega⟩
      simp only [runSeq, List.get?_cons_succ] at hj
      exact runSeq_skip _ rest d
        (runCheck_output_suggested st inp.dir_counts inp.threshold inp.cooldown
          inp.cwd inp.now inp.last_line d hdi) j' outj hj
    | succ i' =>
      obtain ⟨j', rfl⟩ : ∃ j', j = j' + 1 := ⟨j - 1, by omega⟩
      simp only [runSeq, List.get?_cons_succ] at hi hj
      exact ih _ i' j' (by omega) hi hj

/-- Witness for C5: two checks — the first returns `src`, the second sees
further edits to `src` but returns nothing. -/
theorem no_directory_suggested_twice_witness :
    ((0 : Nat) < 1 ∧
      (runSeq emptySessionState
          [⟨[("src", 5)], 2, 30, "/r", 0, 10⟩,
            ⟨[("src", 7)], 2, 30, "/r", 1000000, 20⟩]).1.get? 0 =
        some [("src", 5)] ∧
      (runSeq emptySessionState
          [⟨[("src", 5)], 2, 30, "/r", 0, 10⟩,
            ⟨[("src", 7)], 2, 30, "/r", 1000000, 20⟩]).1.get? 1 = some [] ∧
      "src" ∈ ([("src", 5)].map Prod.fst)) ∧
      "src" ∉ (([] : List (String × Nat)).map Prod.fst) :=
  ⟨⟨by decide, by decide, by decide, by decide⟩,
    no_directory_suggested_twice emptySessionState
      [⟨[("src", 5)], 2, 30, "/r", 0, 10⟩, ⟨[("src", 7)], 2, 30, "/r", 1000000, 20⟩]
      "src" 0 1 (by decide) [("src", 5)] [] (by decide) (by decide) (by decide)⟩

theorem pass2_loop_keys (aggCh : List String) (dcl : List (String × Nat))
    (res : List (String × Nat)) (p : String) (v : Nat)
    (h : getA (dcl.foldl (pass2Step aggCh) res) p = some v) :
    (∃ w, getA res p = some w) ∨ p ∈ keysA dcl := by
  induction dcl generalizing res with
  | nil => exact Or.inl ⟨v, h⟩
  | cons e rest ih =>
    simp only [List.foldl_cons] at h
    rcases ih _ h with ⟨w, hw⟩ | h1
    · by_cases hq : e.1 = p
      · exact Or.inr ((keysA_cons_mem e rest p).mpr (Or.inl hq.symm))
      · revert hw
        unfold pass2Step
        split
        · intro hw
          rw [getA_setA_ne _ _ _ _ hq] at hw
          exact Or.inl ⟨w, hw⟩
        · intro hw
          exact Or.inl ⟨w, hw⟩
    · exact Or.inr ((keysA_cons_mem e rest p).mpr (Or.inr h1))

theorem pass1_loop_info_keys (dc : List (String × Nat)) (below : List String)
    (T : Nat) (pol : List (String × Nat))
    (acc : List (String × Nat) × List (String × AggInfo) × List String)
    (p : String) (i : AggInfo)
    (h : getA (pol.foldl (pass1Step dc below T) acc).2.1 p = some i) :
    (∃ w, getA acc.2.1 p = some w) ∨ p ∈ keysA pol := by
  induction pol generalizing acc with
  | nil => exact Or.inl ⟨i, h⟩
  | cons e rest ih =>
    simp only [List.foldl_cons] at h
    rcases ih _ h with ⟨w, hw⟩ | h1
    · by_cases hq : e.1 = p
      · exact Or.inr ((keysA_cons_mem e rest p).mpr (Or.inl hq.symm))
      · revert hw
        unfold pass1Step
        split
        · intro hw
          rw [getA_setA_ne _ _ _ _ hq] at hw
          exact Or.inl ⟨w, hw⟩
        · intro hw
          exact Or.inl ⟨w, hw⟩
    · exact Or.inr ((keysA_cons_mem e rest p).mpr (Or.inr h1))

theorem po_keys_excl (files excluded : List String) (T : Nat) (p : String)
    (hp : p ∈ keysA (overflowBelow (dir_counts_of files excluded) T).1) :
    isExcludedDir excluded p = false := by
  obtain ⟨e, he, hpe⟩ := overflow_keys (dir_counts_of files excluded) T p hp
  have hkey : e.1 ∈ keysA (dir_counts_of files excluded) := by
    simpa [keysA] using List.mem_map_of_mem Prod.fst he
  rw [hpe]
  exact isExcludedDir_pparent excluded e.1
    (dir_counts_keys_excl files excluded e.1 hkey)

/-- **C10.**  For every input file list, excluded-token set and threshold,
every directory key of the result of `group_files_by_directory` — and every
key of its `aggregation_info` map — contains no excluded token among its
path segments: direct keys are filtered at counting time, and every
aggregation parent is the `parent` of an already-filtered directory, whose
path segments are a subset of the child's. -/
theorem aggregation_respects_exclusions (files excluded : List String) (T : Nat)
    (p : String)
    (hp : p ∈ keysA (group_files_by_directory files excluded T).1 ∨
      p ∈ keysA (group_files_by_directory files excluded T).2) :
    isExcludedDir excluded p = false := by
  rw [group_eq] at hp
  rcases hp with hp | hp
  · obtain ⟨v, hv⟩ := Option.isSome_iff_exists.mp ((getA_isSome_iff _ p).mpr hp)
    rcases pass2_loop_keys _ _ _ p v hv with ⟨w, hw⟩ | hkey
    · rcases pass1_loop_inv (dir_counts_of files excluded)
          (overflowBelow (dir_counts_of files excluded) T).2 T
          (overflowBelow (dir_counts_of files excluded) T).1 ([], [], []) p w hw with
        h1 | ⟨o, ho, _, _⟩
      · exact absurd h1 (by simp [getA])
      · exact po_keys_excl files excluded T p
          (by simpa [keysA] using List.mem_map_of_mem Prod.fst ho)
    · exact dir_counts_keys_excl files excluded p hkey
  · obtain ⟨i, hi⟩ := Option.isSome_iff_exists.mp ((getA_isSome_iff _ p).mpr hp)
    rcases pass1_loop_info_keys (dir_counts_of files excluded)
        (overflowBelow (dir_counts_of files excluded) T).2 T
        (overflowBelow (dir_counts_of files excluded) T).1 ([], [], []) p i hi with
      ⟨w, hw⟩ | hkey
    · exact absurd hw (by simp [getA])
    · exact po_keys_excl files excluded T p hkey

/-- Witness for C10: with `node_modules` excluded, the aggregated key `src`
is exclusion-free. -/
theorem aggregation_respects_exclusions_witness :
    ("src" ∈ keysA (group_files_by_directory
        ["node_modules/x/a.js", "src/x/a.ts", "src/y/b.ts"] ["node_modules"] 2).1 ∨
      "src" ∈ keysA (group_files_by_directory
        ["node_modules/x/a.js", "src/x/a.ts", "src/y/b.ts"] ["node_modules"] 2).2) ∧
      isExcludedDir ["node_modules"] "src" = false :=
  ⟨Or.inl (by decide),
    aggregation_respects_exclusions
      ["node_modules/x/a.js", "src/x/a.ts", "src/y/b.ts"] ["node_modules"] 2 "src"
      (Or.inl (by decide))⟩
